import Mathlib

set_option maxHeartbeats 1000000
set_option linter.unusedVariables false

/-!
Verification development for the workspace-session subsystem of the
tridecco game-board IDE: the document store (FileSystem over localStorage,
src/unnamed/part_000), the share codec (URLDataTranscoder,
src/unnamed/part_001: JSON.stringify, btoa, encodeURIComponent and their
inverses), and the editor session controller (src/unnamed/part_011:
dirty tracking, debounced autosave, version-library loading).

JavaScript strings are modelled as lists of UTF-16 code units (List Nat).
JSON numbers are kept as their lexemes; no claim depends on float
semantics.  Effects (Date.now, random ids, timers) are explicit
parameters or explicit event steps.
-/

/-- A JavaScript string: a list of UTF-16 code units. -/
abbrev Str := List Nat

/-- Wellformed code-unit list: every unit fits in 16 bits. -/
def SWf (s : Str) : Prop := ∀ c ∈ s, c < 65536

instance (s : Str) : Decidable (SWf s) := by
  unfold SWf; infer_instance

/-! ## JSON values

Model of the JavaScript JSON value universe as produced by JSON.parse:
numbers are kept as their source lexemes (timestamps in this code base are
integers, and no code path compares non-integer numbers). -/

inductive Json where
  | null : Json
  | bool (b : Bool) : Json
  | num (lex : Str) : Json
  | str (s : Str) : Json
  | arr (xs : List Json) : Json
  | obj (fs : List (Str × Json)) : Json

/-! ## Decimal lexemes for natural numbers -/

/-- Fuel-driven digit accumulator: prepends the decimal digits of n. -/
def natLexGo : Nat → Nat → Str → Str
  | 0, _, acc => acc
  | fuel + 1, n, acc => if n = 0 then acc else natLexGo fuel (n / 10) ((n % 10 + 48) :: acc)

/-- Decimal lexeme of a natural number, as emitted by JSON.stringify for
integral doubles. -/
def natLex (n : Nat) : Str := if n = 0 then [48] else natLexGo (n + 1) n []

/-- Digit-only strings (code units 48-57). -/
def DigitStr (s : Str) : Prop := ∀ c ∈ s, 48 ≤ c ∧ c ≤ 57

theorem natLexGo_spec : ∀ n fuel acc, n ≤ fuel → n ≠ 0 → DigitStr acc →
    ∃ d t, natLexGo fuel n acc = d :: t ∧ 49 ≤ d ∧ d ≤ 57 ∧ DigitStr t := by
  intro n
  induction n using Nat.strong_induction_on with
  | _ n ih =>
    intro fuel acc hle hne hacc
    match fuel with
    | 0 => omega
    | f + 1 =>
      rw [natLexGo, if_neg hne]
      by_cases h10 : n / 10 = 0
      · have hn10 : n < 10 := by omega
        have : natLexGo f (n / 10) ((n % 10 + 48) :: acc) = (n % 10 + 48) :: acc := by
          rw [h10]
          match f with
          | 0 => rfl
          | g + 1 => rw [natLexGo, if_pos rfl]
        rw [this]
        refine ⟨n % 10 + 48, acc, rfl, by omega, by omega, hacc⟩
      · have hlt : n / 10 < n := Nat.div_lt_self (by omega) (by omega)
        have hacc2 : DigitStr ((n % 10 + 48) :: acc) := by
          intro c hc
          rcases List.mem_cons.mp hc with h | h
          · omega
          · exact hacc c h
        exact ih (n / 10) hlt f ((n % 10 + 48) :: acc) (by omega) h10 hacc2

theorem natLex_zero : natLex 0 = [48] := rfl

theorem natLex_pos (n : Nat) (hn : n ≠ 0) :
    ∃ d t, natLex n = d :: t ∧ 49 ≤ d ∧ d ≤ 57 ∧ DigitStr t := by
  unfold natLex
  rw [if_neg hn]
  exact natLexGo_spec n (n + 1) [] (by omega) hn (by intro c hc; cases hc)

theorem natLex_digits (n : Nat) : DigitStr (natLex n) := by
  by_cases hn : n = 0
  · subst hn; intro c hc; simp [natLex] at hc; omega
  · obtain ⟨d, t, heq, hd1, hd2, ht⟩ := natLex_pos n hn
    rw [heq]
    intro c hc
    rcases List.mem_cons.mp hc with h | h
    · omega
    · exact ht c h

theorem natLex_ne_nil (n : Nat) : natLex n ≠ [] := by
  by_cases hn : n = 0
  · subst hn; simp [natLex]
  · obtain ⟨d, t, heq, _⟩ := natLex_pos n hn
    simp [heq]

/-! ## JSON string escaping (ECMA-262 QuoteJSONString, well-formed variant)

Double quote and backslash get two-character escapes, the five named
control characters get their short escapes, other control characters and
lone surrogates get a lowercase unicode escape, and paired surrogates pass
through unchanged. -/

/-- Lowercase hex digit character for a value below 16. -/
def hexChar (n : Nat) : Nat := if n < 10 then 48 + n else 87 + n

/-- Lowercase unicode escape of one code unit. -/
def uEsc (c : Nat) : Str :=
  [92, 117, hexChar (c / 4096 % 16), hexChar (c / 256 % 16), hexChar (c / 16 % 16), hexChar (c % 16)]

/-- Code units that JSON.stringify escapes with a two-character escape. -/
def escSimple (c : Nat) : Bool :=
  c = 34 ∨ c = 92 ∨ c = 8 ∨ c = 9 ∨ c = 10 ∨ c = 12 ∨ c = 13

/-- The two-character escape sequence for a simple-escape code unit. -/
def escSeq (c : Nat) : Str :=
  if c = 34 then [92, 34]
  else if c = 92 then [92, 92]
  else if c = 8 then [92, 98]
  else if c = 9 then [92, 116]
  else if c = 10 then [92, 110]
  else if c = 12 then [92, 102]
  else [92, 114]

/-- QuoteJSONString body: escape a code-unit list. -/
def escStr : Str → Str
  | [] => []
  | [c] =>
    if escSimple c then escSeq c
    else if c < 32 then uEsc c
    else if 55296 ≤ c ∧ c < 57344 then uEsc c
    else [c]
  | c :: d :: rest =>
    if escSimple c then escSeq c ++ escStr (d :: rest)
    else if c < 32 then uEsc c ++ escStr (d :: rest)
    else if 55296 ≤ c ∧ c < 56320 then
      (if 56320 ≤ d ∧ d < 57344 then c :: d :: escStr rest
       else uEsc c ++ escStr (d :: rest))
    else if 56320 ≤ c ∧ c < 57344 then uEsc c ++ escStr (d :: rest)
    else c :: escStr (d :: rest)

/-! ## JSON serialization (JSON.stringify without indentation) -/

mutual

/-- JSON.stringify of a value (no space argument). -/
def stringifyJson : Json → Str
  | .null => [110, 117, 108, 108]
  | .bool true => [116, 114, 117, 101]
  | .bool false => [102, 97, 108, 115, 101]
  | .num lex => lex
  | .str s => 34 :: escStr s ++ [34]
  | .arr [] => [91, 93]
  | .arr (x :: xs) => 91 :: (stringifyJson x ++ stringifyTail xs) ++ [93]
  | .obj [] => [123, 125]
  | .obj (f :: fs) => 123 :: (stringifyField f ++ stringifyFTail fs) ++ [125]

/-- Comma-separated remaining array elements. -/
def stringifyTail : List Json → Str
  | [] => []
  | x :: xs => 44 :: stringifyJson x ++ stringifyTail xs

/-- One object member: quoted escaped key, colon, value. -/
def stringifyField : Str × Json → Str
  | (k, v) => 34 :: escStr k ++ [34, 58] ++ stringifyJson v

/-- Comma-separated remaining object members. -/
def stringifyFTail : List (Str × Json) → Str
  | [] => []
  | f :: fs => 44 :: stringifyField f ++ stringifyFTail fs

end

/-! ## Wellformedness of JSON values for round-trip statements -/

mutual

/-- Wellformed value: strings are 16-bit code-unit lists and numeric
lexemes are decimal naturals (the only numbers this code base writes). -/
def jWf : Json → Prop
  | .null => True
  | .bool _ => True
  | .num lex => ∃ n, lex = natLex n
  | .str s => SWf s
  | .arr xs => jWfL xs
  | .obj fs => jWfF fs

/-- Wellformedness of an element list. -/
def jWfL : List Json → Prop
  | [] => True
  | x :: xs => jWf x ∧ jWfL xs

/-- Wellformedness of a member list. -/
def jWfF : List (Str × Json) → Prop
  | [] => True
  | f :: fs => SWf f.1 ∧ jWf f.2 ∧ jWfF fs

end

/-! ## JSON parsing (JSON.parse without reviver)

Fuel-driven recursive-descent parser over code-unit lists, following the
JSON grammar exactly: the fuel only bounds nesting/member recursion and is
chosen from the input length at the top entry point.  Duplicate object
keys are kept in order (JavaScript would keep the last value; no stored
or shared document in this repository produces duplicate keys). -/

/-- Hex digit value, accepting both cases. -/
def hexVal (c : Nat) : Option Nat :=
  if 48 ≤ c ∧ c ≤ 57 then some (c - 48)
  else if 65 ≤ c ∧ c ≤ 70 then some (c - 55)
  else if 97 ≤ c ∧ c ≤ 102 then some (c - 87)
  else none

/-- Value of a two-character JSON escape, if legal. -/
def escMap (e : Nat) : Option Nat :=
  if e = 34 then some 34
  else if e = 92 then some 92
  else if e = 47 then some 47
  else if e = 98 then some 8
  else if e = 116 then some 9
  else if e = 110 then some 10
  else if e = 102 then some 12
  else if e = 114 then some 13
  else none

/-- Parse a JSON string body after the opening quote, returning the decoded
code units and the remainder after the closing quote. -/
def parseStrB : Nat → Str → Option (Str × Str)
  | 0, _ => none
  | _ + 1, [] => none
  | fuel + 1, c :: rest =>
    if c = 34 then some ([], rest)
    else if c = 92 then
      match rest with
      | [] => none
      | 117 :: h1 :: h2 :: h3 :: h4 :: rest3 =>
        match hexVal h1, hexVal h2, hexVal h3, hexVal h4 with
        | some a, some b, some c2, some d =>
          (parseStrB fuel rest3).map (fun p => ((a * 4096 + b * 256 + c2 * 16 + d) :: p.1, p.2))
        | _, _, _, _ => none
      | e :: rest2 =>
        match escMap e with
        | some c2 => (parseStrB fuel rest2).map (fun p => (c2 :: p.1, p.2))
        | none => none
    else if c < 32 then none
    else (parseStrB fuel rest).map (fun p => (c :: p.1, p.2))

/-- JSON whitespace: space, tab, line feed, carriage return. -/
def isWsJ (c : Nat) : Bool := c = 32 ∨ c = 9 ∨ c = 10 ∨ c = 13

/-- Drop leading JSON whitespace. -/
def skipWs : Str → Str
  | [] => []
  | c :: rest => if isWsJ c then skipWs rest else c :: rest

/-- Decimal digit test. -/
def isDigitC (c : Nat) : Bool := 48 ≤ c ∧ c ≤ 57

/-- Longest digit prefix and the remainder. -/
def takeDigits : Str → Str × Str
  | [] => ([], [])
  | c :: rest =>
    if isDigitC c then
      let p := takeDigits rest
      (c :: p.1, p.2)
    else ([], c :: rest)

/-- Whether a string starts with a digit. -/
def startsDigit : Str → Bool
  | [] => false
  | c :: _ => isDigitC c

/-- Integer part of a JSON number (no leading zeros except a lone zero). -/
def parseIntPart : Str → Option (Str × Str)
  | [] => none
  | c :: rest =>
    if c = 48 then some ([48], rest)
    else if isDigitC c then
      let p := takeDigits rest
      some (c :: p.1, p.2)
    else none

/-- Optional fraction part of a JSON number. -/
def parseFracPart (s : Str) : Option (Str × Str) :=
  match s with
  | c :: rest =>
    if c = 46 then
      if startsDigit rest then
        let p := takeDigits rest
        some (46 :: p.1, p.2)
      else none
    else some ([], c :: rest)
  | [] => some ([], [])

/-- Optional exponent part of a JSON number. -/
def parseExpPart (s : Str) : Option (Str × Str) :=
  match s with
  | c :: rest =>
    if c = 101 ∨ c = 69 then
      match rest with
      | e2 :: r2 =>
        if e2 = 43 ∨ e2 = 45 then
          if startsDigit r2 then
            let p := takeDigits r2
            some (c :: e2 :: p.1, p.2)
          else none
        else if startsDigit rest then
          let p := takeDigits rest
          some (c :: p.1, p.2)
        else none
      | [] => none
    else some ([], c :: rest)
  | [] => some ([], [])

/-- Parse a JSON number lexeme at the head of the input. -/
def parseNumberBody (s : Str) : Option (Str × Str) :=
  let sp : Str × Str := match s with
    | c :: r => if c = 45 then ([45], r) else ([], c :: r)
    | [] => ([], [])
  match parseIntPart sp.2 with
  | none => none
  | some (ip, s2) =>
    match parseFracPart s2 with
    | none => none
    | some (fp, s3) =>
      match parseExpPart s3 with
      | none => none
      | some (ep, s4) => some (sp.1 ++ ip ++ fp ++ ep, s4)

mutual

/-- Parse one JSON value at the head of the input (whitespace already
skipped); fuel bounds structural recursion only. -/
def parseValue : Nat → Str → Option (Json × Str)
  | 0, _ => none
  | _ + 1, [] => none
  | fuel + 1, c :: rest =>
    if c = 123 then
      match skipWs rest with
      | 125 :: r => some (.obj [], r)
      | t => parseMembers fuel t
    else if c = 91 then
      match skipWs rest with
      | 93 :: r => some (.arr [], r)
      | t => (parseElems fuel t).map (fun p => (Json.arr p.1, p.2))
    else if c = 34 then
      (parseStrB (rest.length + 1) rest).map (fun p => (Json.str p.1, p.2))
    else if c = 116 then
      match rest with
      | 114 :: 117 :: 101 :: r => some (.bool true, r)
      | _ => none
    else if c = 102 then
      match rest with
      | 97 :: 108 :: 115 :: 101 :: r => some (.bool false, r)
      | _ => none
    else if c = 110 then
      match rest with
      | 117 :: 108 :: 108 :: r => some (.null, r)
      | _ => none
    else if c = 45 ∨ isDigitC c then
      (parseNumberBody (c :: rest)).map (fun p => (Json.num p.1, p.2))
    else none

/-- Parse the elements of a non-empty array, positioned at the first
element (possibly with leading whitespace), through the closing bracket. -/
def parseElems : Nat → Str → Option (List Json × Str)
  | 0, _ => none
  | fuel + 1, s =>
    match parseValue fuel (skipWs s) with
    | none => none
    | some (v, r) =>
      match skipWs r with
      | 44 :: r2 => (parseElems fuel r2).map (fun p => (v :: p.1, p.2))
      | 93 :: r2 => some ([v], r2)
      | _ => none

/-- Parse the members of a non-empty object, positioned at the first key
quote (whitespace already skipped), through the closing brace. -/
def parseMembers : Nat → Str → Option (Json × Str)
  | 0, _ => none
  | fuel + 1, s =>
    match s with
    | 34 :: rest =>
      match parseStrB (rest.length + 1) rest with
      | none => none
      | some (key, r1) =>
        match skipWs r1 with
        | 58 :: r2 =>
          match parseValue fuel (skipWs r2) with
          | none => none
          | some (v, r3) =>
            match skipWs r3 with
            | 44 :: r4 =>
              match parseMembers fuel (skipWs r4) with
              | some (.obj fields, r5) => some (.obj ((key, v) :: fields), r5)
              | _ => none
            | 125 :: r4 => some (.obj [(key, v)], r4)
            | _ => none
        | _ => none
    | _ => none

end

/-- JSON.parse: parse one value surrounded by optional whitespace and
require the input to be exhausted. -/
def jsonParse (s : Str) : Option Json :=
  match parseValue (2 * s.length + 2) (skipWs s) with
  | some (v, r) => if skipWs r = [] then some v else none
  | none => none

/-! ## Round trip: the parser inverts the serializer -/

theorem parseStrB_quote (g : Nat) (rest : Str) :
    parseStrB (g + 1) (34 :: rest) = some ([], rest) := by
  simp only [parseStrB]
  simp

theorem parseStrB_escSeq (c : Nat) (hc : escSimple c = true) (f : Nat) (tail : Str) :
    parseStrB (f + 1) (escSeq c ++ tail) =
      (parseStrB f tail).map (fun p => (c :: p.1, p.2)) := by
  simp only [escSimple, decide_eq_true_eq] at hc
  rcases hc with rfl | rfl | rfl | rfl | rfl | rfl | rfl <;>
    simp [escSeq, parseStrB, escMap]

theorem hexVal_hexChar (m : Nat) (hm : m < 16) : hexVal (hexChar m) = some m := by
  interval_cases m <;> rfl

theorem uEsc_recon (c : Nat) (hc : c < 65536) :
    c / 4096 % 16 * 4096 + c / 256 % 16 * 256 + c / 16 % 16 * 16 + c % 16 = c := by
  omega

theorem parseStrB_uEsc (c : Nat) (hc : c < 65536) (f : Nat) (tail : Str) :
    parseStrB (f + 1) (uEsc c ++ tail) =
      (parseStrB f tail).map (fun p => (c :: p.1, p.2)) := by
  simp only [uEsc, List.cons_append, List.nil_append]
  simp only [parseStrB]
  rw [hexVal_hexChar _ (by omega), hexVal_hexChar _ (by omega),
      hexVal_hexChar _ (by omega), hexVal_hexChar _ (by omega)]
  simp [uEsc_recon c hc]

theorem parseStrB_raw (c : Nat) (h34 : c ≠ 34) (h92 : c ≠ 92) (h32 : ¬c < 32)
    (f : Nat) (tail : Str) :
    parseStrB (f + 1) (c :: tail) =
      (parseStrB f tail).map (fun p => (c :: p.1, p.2)) := by
  simp only [parseStrB]
  rw [if_neg h34, if_neg h92, if_neg h32]

theorem skipWs_cons (c : Nat) (t : Str) (h : isWsJ c = false) : skipWs (c :: t) = c :: t := by
  simp [skipWs, h]

theorem escSeq_len (c : Nat) (hc : escSimple c = true) : (escSeq c).length = 2 := by
  simp only [escSimple, decide_eq_true_eq] at hc
  rcases hc with rfl | rfl | rfl | rfl | rfl | rfl | rfl <;> rfl

theorem escSimple_false (c : Nat) (h : escSimple c = false) :
    c ≠ 34 ∧ c ≠ 92 := by
  simp only [escSimple] at h
  constructor <;> (intro hc; subst hc; simp at h)

theorem parseStrB_escStr (s : Str) : ∀ fuel rest, SWf s → (escStr s).length + 1 ≤ fuel →
    parseStrB fuel (escStr s ++ 34 :: rest) = some (s, rest) := by
  induction s using escStr.induct with
  | case1 =>
    intro fuel rest _ hfuel
    obtain ⟨g, rfl⟩ : ∃ g, fuel = g + 1 := ⟨fuel - 1, by omega⟩
    simpa [escStr] using parseStrB_quote g rest
  | case2 c hsimp =>
    intro fuel rest hwf hfuel
    rw [escStr, if_pos hsimp] at hfuel ⊢
    rw [escSeq_len c hsimp] at hfuel
    obtain ⟨g, rfl⟩ : ∃ g, fuel = g + 2 := ⟨fuel - 2, by omega⟩
    rw [show g + 2 = (g + 1) + 1 by omega, parseStrB_escSeq c hsimp, parseStrB_quote g rest]
    rfl
  | case3 c hsimp hlt =>
    intro fuel rest hwf hfuel
    rw [escStr, if_neg (by simp [hsimp]), if_pos hlt] at hfuel ⊢
    have hc : c < 65536 := hwf c (by simp)
    simp only [uEsc, List.length_cons, List.length_nil] at hfuel
    obtain ⟨g, rfl⟩ : ∃ g, fuel = g + 2 := ⟨fuel - 2, by omega⟩
    rw [show g + 2 = (g + 1) + 1 by omega, parseStrB_uEsc c hc, parseStrB_quote g rest]
    rfl
  | case4 c hsimp hlt hsur =>
    intro fuel rest hwf hfuel
    rw [escStr, if_neg (by simp [hsimp]), if_neg hlt, if_pos hsur] at hfuel ⊢
    have hc : c < 65536 := hwf c (by simp)
    simp only [uEsc, List.length_cons, List.length_nil] at hfuel
    obtain ⟨g, rfl⟩ : ∃ g, fuel = g + 2 := ⟨fuel - 2, by omega⟩
    rw [show g + 2 = (g + 1) + 1 by omega, parseStrB_uEsc c hc, parseStrB_quote g rest]
    rfl
  | case5 c hsimp hlt hsur =>
    intro fuel rest hwf hfuel
    rw [escStr, if_neg (by simp [hsimp]), if_neg hlt, if_neg hsur] at hfuel ⊢
    obtain ⟨hne34, hne92⟩ := escSimple_false c (by simpa using hsimp)
    obtain ⟨g, rfl⟩ : ∃ g, fuel = g + 2 := ⟨fuel - 2, by simp at hfuel; omega⟩
    simp only [List.cons_append, List.nil_append]
    rw [show g + 2 = (g + 1) + 1 by omega, parseStrB_raw c hne34 hne92 hlt, parseStrB_quote g rest]
    rfl
  | case6 c d rest' hsimp ih =>
    intro fuel rest hwf hfuel
    rw [escStr, if_pos hsimp] at hfuel ⊢
    rw [List.length_append, escSeq_len c hsimp] at hfuel
    obtain ⟨g, rfl⟩ : ∃ g, fuel = g + 1 := ⟨fuel - 1, by omega⟩
    rw [List.append_assoc, parseStrB_escSeq c hsimp,
        ih g rest (fun u hu => hwf u (by simp at hu ⊢; tauto)) (by omega)]
    rfl
  | case7 c d rest' hsimp hlt ih =>
    intro fuel rest hwf hfuel
    rw [escStr, if_neg (by simp [hsimp]), if_pos hlt] at hfuel ⊢
    have hc : c < 65536 := hwf c (by simp)
    rw [List.length_append] at hfuel
    simp only [uEsc, List.length_cons, List.length_nil] at hfuel
    obtain ⟨g, rfl⟩ : ∃ g, fuel = g + 1 := ⟨fuel - 1, by omega⟩
    rw [List.append_assoc, parseStrB_uEsc c hc,
        ih g rest (fun u hu => hwf u (by simp at hu ⊢; tauto)) (by omega)]
    rfl
  | case8 c d rest' hsimp hlt hhi hlo ih =>
    intro fuel rest hwf hfuel
    rw [escStr, if_neg (by simp [hsimp]), if_neg hlt, if_pos hhi, if_pos hlo] at hfuel ⊢
    simp only [List.length_cons] at hfuel
    obtain ⟨g, rfl⟩ : ∃ g, fuel = g + 2 := ⟨fuel - 2, by omega⟩
    simp only [List.cons_append]
    rw [show g + 2 = (g + 1) + 1 by omega,
        parseStrB_raw c (by omega) (by omega) (by omega),
        parseStrB_raw d (by omega) (by omega) (by omega),
        ih g rest (fun u hu => hwf u (by simp at hu ⊢; tauto)) (by omega)]
    rfl
  | case9 c d rest' hsimp hlt hhi hlo ih =>
    intro fuel rest hwf hfuel
    rw [escStr, if_neg (by simp [hsimp]), if_neg hlt, if_pos hhi, if_neg hlo] at hfuel ⊢
    have hc : c < 65536 := hwf c (by simp)
    rw [List.length_append] at hfuel
    simp only [uEsc, List.length_cons, List.length_nil] at hfuel
    obtain ⟨g, rfl⟩ : ∃ g, fuel = g + 1 := ⟨fuel - 1, by omega⟩
    rw [List.append_assoc, parseStrB_uEsc c hc,
        ih g rest (fun u hu => hwf u (by simp at hu ⊢; tauto)) (by omega)]
    rfl
  | case10 c d rest' hsimp hlt hhi hlo2 ih =>
    intro fuel rest hwf hfuel
    rw [escStr, if_neg (by simp [hsimp]), if_neg hlt, if_neg hhi, if_pos hlo2] at hfuel ⊢
    have hc : c < 65536 := hwf c (by simp)
    rw [List.length_append] at hfuel
    simp only [uEsc, List.length_cons, List.length_nil] at hfuel
    obtain ⟨g, rfl⟩ : ∃ g, fuel = g + 1 := ⟨fuel - 1, by omega⟩
    rw [List.append_assoc, parseStrB_uEsc c hc,
        ih g rest (fun u hu => hwf u (by simp at hu ⊢; tauto)) (by omega)]
    rfl
  | case11 c d rest' hsimp hlt hhi hlo2 ih =>
    intro fuel rest hwf hfuel
    rw [escStr, if_neg (by simp [hsimp]), if_neg hlt, if_neg hhi, if_neg hlo2] at hfuel ⊢
    obtain ⟨hne34, hne92⟩ := escSimple_false c (by simpa using hsimp)
    simp only [List.length_cons] at hfuel
    obtain ⟨g, rfl⟩ : ∃ g, fuel = g + 1 := ⟨fuel - 1, by omega⟩
    simp only [List.cons_append]
    rw [parseStrB_raw c hne34 hne92 hlt,
        ih g rest (fun u hu => hwf u (by simp at hu ⊢; tauto)) (by omega)]
    rfl

theorem takeDigits_spec (t : Str) : ∀ rest, DigitStr t → startsDigit rest = false →
    takeDigits (t ++ rest) = (t, rest) := by
  induction t with
  | nil =>
    intro rest _ hr
    match rest with
    | [] => rfl
    | c :: r =>
      simp only [startsDigit] at hr
      simp [takeDigits, hr]
  | cons c t ih =>
    intro rest ht hr
    have hc : isDigitC c = true := by
      have := ht c (by simp)
      simp [isDigitC]; omega
    have ht2 : DigitStr t := fun u hu => ht u (by simp [hu])
    simp only [List.cons_append, takeDigits, hc, if_true, List.append_eq, ih rest ht2 hr]

/-- Characters that may not follow a serialized number: a digit or a
fraction or exponent marker would be absorbed into the lexeme. -/
def numBoundary : Str → Bool
  | [] => true
  | c :: _ => ¬(isDigitC c ∨ c = 46 ∨ c = 101 ∨ c = 69)

theorem parseFracPart_skip (s : Str) (h : numBoundary s = true) :
    parseFracPart s = some ([], s) := by
  match s with
  | [] => rfl
  | c :: t =>
    simp only [numBoundary, decide_eq_true_eq] at h
    simp only [parseFracPart]
    rw [if_neg (fun hc => h (Or.inr (Or.inl hc)))]

theorem parseExpPart_skip (s : Str) (h : numBoundary s = true) :
    parseExpPart s = some ([], s) := by
  match s with
  | [] => rfl
  | c :: t =>
    simp only [numBoundary, decide_eq_true_eq] at h
    simp only [parseExpPart]
    rw [if_neg (fun hc => h (Or.inr (Or.inr hc)))]

theorem numBoundary_notDigit (s : Str) (h : numBoundary s = true) : startsDigit s = false := by
  match s with
  | [] => rfl
  | c :: t =>
    simp only [numBoundary, decide_eq_true_eq] at h
    simp only [startsDigit]
    cases hb : isDigitC c
    · rfl
    · exact absurd (Or.inl hb) h

theorem parseNumberBody_natLex (n : Nat) (rest : Str) (hb : numBoundary rest = true) :
    parseNumberBody (natLex n ++ rest) = some (natLex n, rest) := by
  by_cases hn : n = 0
  · subst hn
    rw [natLex_zero]
    simp only [List.cons_append, List.nil_append, parseNumberBody]
    rw [if_neg (by omega : ¬(48 : Nat) = 45)]
    simp [parseIntPart, parseFracPart_skip rest hb, parseExpPart_skip rest hb]
  · obtain ⟨d, t, heq, hd1, hd2, ht⟩ := natLex_pos n hn
    rw [heq]
    simp only [List.cons_append, parseNumberBody]
    rw [if_neg (by omega : ¬d = 45)]
    simp only [parseIntPart]
    rw [if_neg (by omega : ¬d = 48), if_pos (by simp [isDigitC]; omega)]
    simp [takeDigits_spec t rest ht (numBoundary_notDigit rest hb),
          parseFracPart_skip rest hb, parseExpPart_skip rest hb]

theorem parseValue_null (g : Nat) (rest : Str) :
    parseValue (g + 1) ([110, 117, 108, 108] ++ rest) = some (.null, rest) := by
  simp [parseValue]

theorem parseValue_true (g : Nat) (rest : Str) :
    parseValue (g + 1) ([116, 114, 117, 101] ++ rest) = some (.bool true, rest) := by
  simp [parseValue]

theorem parseValue_false (g : Nat) (rest : Str) :
    parseValue (g + 1) ([102, 97, 108, 115, 101] ++ rest) = some (.bool false, rest) := by
  simp [parseValue]

theorem parseValue_natLex (n : Nat) (g : Nat) (rest : Str) (hb : numBoundary rest = true) :
    parseValue (g + 1) (natLex n ++ rest) = some (.num (natLex n), rest) := by
  by_cases hn : n = 0
  · subst hn
    rw [natLex_zero]
    simp only [List.cons_append, List.nil_append, parseValue]
    rw [if_neg (by omega : ¬(48 : Nat) = 123), if_neg (by omega : ¬(48 : Nat) = 91),
        if_neg (by omega : ¬(48 : Nat) = 34), if_neg (by omega : ¬(48 : Nat) = 116),
        if_neg (by omega : ¬(48 : Nat) = 102), if_neg (by omega : ¬(48 : Nat) = 110),
        if_pos (Or.inr (by simp [isDigitC]))]
    have := parseNumberBody_natLex 0 rest hb
    rw [natLex_zero] at this
    simp only [List.cons_append, List.nil_append] at this
    rw [this]
    simp [natLex_zero]
  · obtain ⟨d, t, heq, hd1, hd2, ht⟩ := natLex_pos n hn
    rw [heq]
    simp only [List.cons_append, parseValue]
    rw [if_neg (by omega : ¬d = 123), if_neg (by omega : ¬d = 91),
        if_neg (by omega : ¬d = 34), if_neg (by omega : ¬d = 116),
        if_neg (by omega : ¬d = 102), if_neg (by omega : ¬d = 110),
        if_pos (Or.inr (by simp [isDigitC]; omega))]
    have := parseNumberBody_natLex n rest hb
    rw [heq] at this
    simp only [List.cons_append] at this
    rw [this]
    simp

theorem json_sizeOf_pos (v : Json) : 1 ≤ sizeOf v := by
  cases v <;> simp_arith

theorem jsonList_sizeOf_pos (xs : List Json) : 1 ≤ sizeOf xs := by
  cases xs <;> simp_arith

theorem jsonFields_sizeOf_pos (fs : List (Str × Json)) : 1 ≤ sizeOf fs := by
  cases fs <;> simp_arith

theorem stringify_len_pos (v : Json) (hwf : jWf v) : 1 ≤ (stringifyJson v).length := by
  cases v with
  | null => simp [stringifyJson]
  | bool b => cases b <;> simp [stringifyJson]
  | num lex =>
    obtain ⟨n, rfl⟩ := hwf
    have := natLex_ne_nil n
    rw [stringifyJson]
    cases h : natLex n
    · exact absurd h this
    · simp [h]
  | str s => simp [stringifyJson]
  | arr xs => cases xs <;> simp [stringifyJson]
  | obj fs => cases fs <;> simp [stringifyJson]

/-- Heads of serialized values: never whitespace, never a closing bracket
or brace, never a comma. -/
theorem stringifyJson_head (v : Json) (hwf : jWf v) :
    ∃ c t, stringifyJson v = c :: t ∧ isWsJ c = false ∧ c ≠ 93 ∧ c ≠ 125 ∧ c ≠ 44 := by
  cases v with
  | null => exact ⟨110, _, rfl, by decide, by decide, by decide, by decide⟩
  | bool b =>
    cases b
    · exact ⟨102, _, rfl, by decide, by decide, by decide, by decide⟩
    · exact ⟨116, _, rfl, by decide, by decide, by decide, by decide⟩
  | num lex =>
    obtain ⟨n, rfl⟩ := hwf
    by_cases hn : n = 0
    · subst hn
      rw [stringifyJson, natLex_zero]
      exact ⟨48, _, rfl, by decide, by decide, by decide, by decide⟩
    · obtain ⟨d, t, heq, hd1, hd2, _⟩ := natLex_pos n hn
      rw [stringifyJson, heq]
      exact ⟨d, t, rfl, by simp [isWsJ]; omega, by omega, by omega, by omega⟩
  | str s => exact ⟨34, _, rfl, by decide, by decide, by decide, by decide⟩
  | arr xs =>
    cases xs
    · exact ⟨91, _, rfl, by decide, by decide, by decide, by decide⟩
    · exact ⟨91, _, rfl, by decide, by decide, by decide, by decide⟩
  | obj fs =>
    cases fs
    · exact ⟨123, _, rfl, by decide, by decide, by decide, by decide⟩
    · exact ⟨123, _, rfl, by decide, by decide, by decide, by decide⟩

theorem numBoundary_tail (xs : List Json) (rest : Str) :
    numBoundary (stringifyTail xs ++ 93 :: rest) = true := by
  cases xs <;> simp [stringifyTail, numBoundary, isDigitC]

theorem numBoundary_ftail (fs : List (Str × Json)) (rest : Str) :
    numBoundary (stringifyFTail fs ++ 125 :: rest) = true := by
  cases fs with
  | nil => simp [stringifyFTail, numBoundary, isDigitC]
  | cons f fs => simp [stringifyFTail, numBoundary, isDigitC]

/-- Joint round-trip statement for values, array tails, and object tails,
by strong induction on size. -/
theorem parse_stringify_main : ∀ m : Nat,
    (∀ v : Json, sizeOf v ≤ m → jWf v → ∀ fuel rest, (stringifyJson v).length ≤ fuel →
      numBoundary rest = true →
      parseValue fuel (stringifyJson v ++ rest) = some (v, rest)) ∧
    (∀ (x : Json) (xs : List Json), sizeOf x + sizeOf xs ≤ m → jWf x → jWfL xs →
      ∀ fuel rest, (stringifyJson x).length + (stringifyTail xs).length + 1 ≤ fuel →
      parseElems fuel (stringifyJson x ++ (stringifyTail xs ++ 93 :: rest)) =
        some (x :: xs, rest)) ∧
    (∀ (k : Str) (v : Json) (fs : List (Str × Json)), sizeOf v + sizeOf fs ≤ m →
      SWf k → jWf v → jWfF fs →
      ∀ fuel rest,
      (escStr k).length + (stringifyJson v).length + (stringifyFTail fs).length + 4 ≤ fuel →
      parseMembers fuel (34 :: (escStr k ++ 34 :: 58 :: (stringifyJson v ++ (stringifyFTail fs ++ 125 :: rest)))) =
        some (.obj ((k, v) :: fs), rest)) := by
  intro m
  induction m using Nat.strong_induction_on with
  | _ m ih =>
    refine ⟨?_, ?_, ?_⟩
    · -- values
      intro v hm hwf fuel rest hfuel hb
      cases v with
      | null =>
        simp only [stringifyJson] at hfuel ⊢
        obtain ⟨g, rfl⟩ : ∃ g, fuel = g + 1 := ⟨fuel - 1, by simp at hfuel; omega⟩
        exact parseValue_null g rest
      | bool b =>
        cases b
        · simp only [stringifyJson] at hfuel ⊢
          obtain ⟨g, rfl⟩ : ∃ g, fuel = g + 1 := ⟨fuel - 1, by simp at hfuel; omega⟩
          exact parseValue_false g rest
        · simp only [stringifyJson] at hfuel ⊢
          obtain ⟨g, rfl⟩ : ∃ g, fuel = g + 1 := ⟨fuel - 1, by simp at hfuel; omega⟩
          exact parseValue_true g rest
      | num lex =>
        obtain ⟨n, rfl⟩ := hwf
        simp only [stringifyJson] at hfuel ⊢
        have h1 : 1 ≤ (natLex n).length := by
          cases h : natLex n
          · exact absurd h (natLex_ne_nil n)
          · simp
        obtain ⟨g, rfl⟩ : ∃ g, fuel = g + 1 := ⟨fuel - 1, by omega⟩
        exact parseValue_natLex n g rest hb
      | str s =>
        simp only [stringifyJson] at hfuel ⊢
        obtain ⟨g, rfl⟩ : ∃ g, fuel = g + 1 := ⟨fuel - 1, by simp at hfuel; omega⟩
        simp only [List.cons_append, List.append_assoc, List.nil_append]
        simp only [parseValue]
        rw [if_neg (by omega : ¬(34 : Nat) = 123), if_neg (by omega : ¬(34 : Nat) = 91),
            if_pos trivial]
        rw [parseStrB_escStr s _ rest hwf (by simp only [List.length_append, List.length_cons]; omega)]
        rfl
      | arr xs =>
        cases xs with
        | nil =>
          simp only [stringifyJson] at hfuel ⊢
          obtain ⟨g, rfl⟩ : ∃ g, fuel = g + 1 := ⟨fuel - 1, by simp at hfuel; omega⟩
          simp only [List.cons_append, List.nil_append, parseValue]
          rw [if_neg (by omega : ¬(91 : Nat) = 123), if_pos trivial]
          rw [skipWs_cons 93 rest (by decide)]
        | cons x xs =>
          have hwx : jWf x := by
            rw [jWf] at hwf; rw [jWfL] at hwf; exact hwf.1
          have hwxs : jWfL xs := by
            rw [jWf] at hwf; rw [jWfL] at hwf; exact hwf.2
          simp only [stringifyJson] at hfuel ⊢
          simp only [List.length_cons, List.length_append] at hfuel
          obtain ⟨g, rfl⟩ : ∃ g, fuel = g + 1 := ⟨fuel - 1, by omega⟩
          simp only [List.cons_append, List.append_assoc, List.nil_append]
          simp only [parseValue]
          rw [if_neg (by omega : ¬(91 : Nat) = 123), if_pos trivial]
          obtain ⟨c0, t0, hhead, hws, h93, h125, h44⟩ := stringifyJson_head x hwx
          have hskip : skipWs (stringifyJson x ++ (stringifyTail xs ++ 93 :: rest)) =
              stringifyJson x ++ (stringifyTail xs ++ 93 :: rest) := by
            rw [hhead, List.cons_append]
            exact skipWs_cons c0 _ hws
          rw [hskip]
          have harr := (ih (sizeOf x + sizeOf xs) (by simp_arith at hm ⊢; omega)).2.1
            x xs le_rfl hwx hwxs g rest (by omega)
          split
          · rename_i r heq
            rw [hhead, List.cons_append, List.cons.injEq] at heq
            exact absurd heq.1 h93
          · simp [harr]
      | obj fs =>
        cases fs with
        | nil =>
          simp only [stringifyJson] at hfuel ⊢
          obtain ⟨g, rfl⟩ : ∃ g, fuel = g + 1 := ⟨fuel - 1, by simp at hfuel; omega⟩
          simp only [List.cons_append, List.nil_append, parseValue]
          rw [if_pos trivial]
          rw [skipWs_cons 125 rest (by decide)]
        | cons f fs =>
          obtain ⟨k, v⟩ := f
          have hwk : SWf k := by
            rw [jWf] at hwf; rw [jWfF] at hwf; exact hwf.1
          have hwv : jWf v := by
            rw [jWf] at hwf; rw [jWfF] at hwf; exact hwf.2.1
          have hwfs : jWfF fs := by
            rw [jWf] at hwf; rw [jWfF] at hwf; exact hwf.2.2
          simp only [stringifyJson, stringifyField] at hfuel ⊢
          simp only [List.length_cons, List.length_append] at hfuel
          obtain ⟨g, rfl⟩ : ∃ g, fuel = g + 1 := ⟨fuel - 1, by omega⟩
          simp only [List.cons_append, List.append_assoc, List.nil_append]
          simp only [parseValue]
          rw [if_pos trivial]
          rw [skipWs_cons 34 _ (by decide)]
          have hobj := (ih (sizeOf v + sizeOf fs) (by simp_arith at hm ⊢; omega)).2.2
            k v fs le_rfl hwk hwv hwfs g rest (by omega)
          simp only [List.cons_append, List.append_assoc, List.nil_append] at hobj
          simp [hobj]
    · -- array elements
      intro x xs hm hwx hwxs fuel rest hfuel
      obtain ⟨g, rfl⟩ : ∃ g, fuel = g + 1 := ⟨fuel - 1, by omega⟩
      simp only [parseElems]
      obtain ⟨c0, t0, hhead, hws, h93, h125, h44⟩ := stringifyJson_head x hwx
      have hskip : skipWs (stringifyJson x ++ (stringifyTail xs ++ 93 :: rest)) =
          stringifyJson x ++ (stringifyTail xs ++ 93 :: rest) := by
        rw [hhead, List.cons_append]
        exact skipWs_cons c0 _ hws
      rw [hskip]
      have hval := (ih (sizeOf x) (by
          have := jsonList_sizeOf_pos xs
          omega)).1
        x le_rfl hwx g (stringifyTail xs ++ 93 :: rest) (by omega) (numBoundary_tail xs rest)
      rw [hval]
      cases xs with
      | nil =>
        simp only [stringifyTail, List.nil_append]
        rw [skipWs_cons 93 rest (by decide)]
      | cons y ys =>
        have hwy : jWf y := by rw [jWfL] at hwxs; exact hwxs.1
        have hwys : jWfL ys := by rw [jWfL] at hwxs; exact hwxs.2
        simp only [stringifyTail, List.cons_append, List.append_assoc]
        rw [skipWs_cons 44 _ (by decide)]
        have hsx1 : 1 ≤ (stringifyJson x).length := stringify_len_pos x hwx
        have htail := (ih (sizeOf y + sizeOf ys) (by
            have := json_sizeOf_pos x
            simp_arith at hm
            omega)).2.1
          y ys le_rfl hwy hwys g rest (by
            simp only [stringifyTail, List.length_cons, List.length_append] at hfuel
            omega)
        simp [htail]
    · -- object members
      intro k v fs hm hwk hwv hwfs fuel rest hfuel
      obtain ⟨g, rfl⟩ : ∃ g, fuel = g + 1 := ⟨fuel - 1, by omega⟩
      simp only [parseMembers]
      rw [parseStrB_escStr k _ (58 :: (stringifyJson v ++ (stringifyFTail fs ++ 125 :: rest))) hwk
        (by simp only [List.length_append, List.length_cons]; omega)]
      simp only []
      rw [skipWs_cons 58 _ (by decide)]
      simp only []
      obtain ⟨c0, t0, hhead, hws, h93, h125, h44⟩ := stringifyJson_head v hwv
      have hskip : skipWs (stringifyJson v ++ (stringifyFTail fs ++ 125 :: rest)) =
          stringifyJson v ++ (stringifyFTail fs ++ 125 :: rest) := by
        rw [hhead, List.cons_append]
        exact skipWs_cons c0 _ hws
      rw [hskip]
      have hval := (ih (sizeOf v) (by
          have := jsonFields_sizeOf_pos fs
          omega)).1
        v le_rfl hwv g (stringifyFTail fs ++ 125 :: rest) (by omega) (numBoundary_ftail fs rest)
      rw [hval]
      cases fs with
      | nil =>
        simp only [stringifyFTail, List.nil_append]
        rw [skipWs_cons 125 rest (by decide)]
      | cons f2 fs2 =>
        obtain ⟨k2, v2⟩ := f2
        have hwk2 : SWf k2 := by rw [jWfF] at hwfs; exact hwfs.1
        have hwv2 : jWf v2 := by rw [jWfF] at hwfs; exact hwfs.2.1
        have hwfs2 : jWfF fs2 := by rw [jWfF] at hwfs; exact hwfs.2.2
        simp only [stringifyFTail, stringifyField, List.cons_append, List.append_assoc,
          List.nil_append]
        rw [skipWs_cons 44 _ (by decide)]
        simp only []
        rw [skipWs_cons 34 _ (by decide)]
        have hsv1 : 1 ≤ (stringifyJson v).length := stringify_len_pos v hwv
        have hmem := (ih (sizeOf v2 + sizeOf fs2) (by
            have := json_sizeOf_pos v
            simp_arith at hm
            omega)).2.2
          k2 v2 fs2 le_rfl hwk2 hwv2 hwfs2 g rest (by
            simp only [stringifyFTail, stringifyField, List.length_cons, List.length_append] at hfuel
            omega)
        simp only [List.cons_append, List.append_assoc, List.nil_append] at hmem
        simp [hmem]

/-- JSON.parse inverts JSON.stringify on wellformed values. -/
theorem jsonParse_stringify (v : Json) (hwf : jWf v) :
    jsonParse (stringifyJson v) = some v := by
  unfold jsonParse
  obtain ⟨c0, t0, hhead, hws, h93, h125, h44⟩ := stringifyJson_head v hwf
  have hskip : skipWs (stringifyJson v) = stringifyJson v := by
    rw [hhead]
    exact skipWs_cons c0 _ hws
  rw [hskip]
  have := (parse_stringify_main (sizeOf v)).1 v le_rfl hwf
    (2 * (stringifyJson v).length + 2) [] (by omega) rfl
  rw [List.append_nil] at this
  rw [this]
  simp [skipWs]


/-! ## Base64 (btoa / atob)

btoa maps a latin-1 string to its base64 encoding and throws (here: none)
if any code unit exceeds 255.  atob implements forgiving-base64: strip
ASCII whitespace, strip up to two trailing padding characters when the
length is a multiple of four, reject a leftover length of one, reject
characters outside the alphabet, and decode, discarding leftover bits. -/

/-- Base64 character for a sextet value. -/
def b64chr (n : Nat) : Nat :=
  if n < 26 then 65 + n
  else if n < 52 then 97 + (n - 26)
  else if n < 62 then 48 + (n - 52)
  else if n = 62 then 43
  else 47

/-- Sextet value of a base64 character, if in the alphabet. -/
def b64val (c : Nat) : Option Nat :=
  if 65 ≤ c ∧ c ≤ 90 then some (c - 65)
  else if 97 ≤ c ∧ c ≤ 122 then some (c - 97 + 26)
  else if 48 ≤ c ∧ c ≤ 57 then some (c - 48 + 52)
  else if c = 43 then some 62
  else if c = 47 then some 63
  else none

/-- Encode byte triples to base64 characters, unpadded. -/
def encodeChunks : List Nat → List Nat
  | [] => []
  | [a] => [b64chr (a / 4), b64chr (a % 4 * 16)]
  | [a, b] => [b64chr (a / 4), b64chr (a % 4 * 16 + b / 16), b64chr (b % 16 * 4)]
  | a :: b :: c :: rest =>
    b64chr (a / 4) :: b64chr (a % 4 * 16 + b / 16) :: b64chr (b % 16 * 4 + c / 64) ::
      b64chr (c % 64) :: encodeChunks rest

/-- Padding characters appended by btoa for a given input length. -/
def b64pad (len : Nat) : List Nat :=
  if len % 3 = 1 then [61, 61] else if len % 3 = 2 then [61] else []

/-- The btoa builtin: base64 of a latin-1 string, none on a code unit
above 255 (InvalidCharacterError). -/
def btoa (s : Str) : Option Str :=
  if s.all (fun c => c ≤ 255) then some (encodeChunks s ++ b64pad s.length) else none

/-- ASCII whitespace stripped by forgiving-base64. -/
def isAsciiWs (c : Nat) : Bool := c = 9 ∨ c = 10 ∨ c = 12 ∨ c = 13 ∨ c = 32

/-- Remove up to two trailing padding characters. -/
def stripPad (s : Str) : Str :=
  match s.reverse with
  | c1 :: c2 :: t =>
    if c1 = 61 then (if c2 = 61 then t.reverse else (c2 :: t).reverse) else s
  | [c1] => if c1 = 61 then [] else s
  | [] => s

/-- Decode base64 characters four at a time; a final chunk of two or three
characters yields one or two bytes with leftover bits discarded; a final
chunk of one character is an error. -/
def decodeChunks : List Nat → Option (List Nat)
  | [] => some []
  | [c1, c2] =>
    match b64val c1, b64val c2 with
    | some a, some b => some [a * 4 + b / 16]
    | _, _ => none
  | [c1, c2, c3] =>
    match b64val c1, b64val c2, b64val c3 with
    | some a, some b, some c => some [a * 4 + b / 16, b % 16 * 16 + c / 4]
    | _, _, _ => none
  | c1 :: c2 :: c3 :: c4 :: rest =>
    match b64val c1, b64val c2, b64val c3, b64val c4 with
    | some a, some b, some c, some d =>
      (decodeChunks rest).map
        (fun bs => (a * 4 + b / 16) :: (b % 16 * 16 + c / 4) :: (c % 4 * 64 + d) :: bs)
    | _, _, _, _ => none
  | [_] => none

/-- The atob builtin (forgiving-base64 decode), none on invalid input. -/
def atob (s : Str) : Option Str :=
  let t := s.filter (fun c => ¬ isAsciiWs c)
  let u := if t.length % 4 = 0 then stripPad t else t
  decodeChunks u

theorem b64val_b64chr (n : Nat) (hn : n < 64) : b64val (b64chr n) = some n := by
  unfold b64chr b64val
  split_ifs <;> first
    | (simp only [Option.some.injEq]; omega)
    | (exfalso; omega)

theorem b64chr_alpha (n : Nat) :
    isAsciiWs (b64chr n) = false ∧ b64chr n ≠ 61 ∧ b64chr n < 128 := by
  unfold b64chr isAsciiWs
  split_ifs with h1 h2 h3 h4 <;>
    exact ⟨by simp only [decide_eq_false_iff_not]; omega, by omega, by omega⟩

theorem encodeChunks_mem (s : Str) (c : Nat) (hc : c ∈ encodeChunks s) :
    ∃ n, c = b64chr n := by
  induction s using encodeChunks.induct with
  | case1 => cases hc
  | case2 a => simp [encodeChunks] at hc; rcases hc with rfl | rfl <;> exact ⟨_, rfl⟩
  | case3 a b => simp [encodeChunks] at hc; rcases hc with rfl | rfl | rfl <;> exact ⟨_, rfl⟩
  | case4 a b c2 rest ih =>
    simp [encodeChunks] at hc
    rcases hc with rfl | rfl | rfl | rfl | h
    · exact ⟨_, rfl⟩
    · exact ⟨_, rfl⟩
    · exact ⟨_, rfl⟩
    · exact ⟨_, rfl⟩
    · exact ih h

theorem encodeChunks_no_ws (s : Str) :
    (encodeChunks s).filter (fun c => ¬ isAsciiWs c) = encodeChunks s := by
  rw [List.filter_eq_self]
  intro c hc
  obtain ⟨n, rfl⟩ := encodeChunks_mem s c hc
  simp [(b64chr_alpha n).1]

theorem encodeChunks_len (s : Str) :
    (encodeChunks s ++ b64pad s.length).length % 4 = 0 := by
  induction s using encodeChunks.induct with
  | case1 => rfl
  | case2 a => simp [encodeChunks, b64pad]
  | case3 a b => simp [encodeChunks, b64pad]
  | case4 a b c rest ih =>
    have hpad : b64pad (rest.length + 3) = b64pad rest.length := by
      unfold b64pad
      rw [Nat.add_mod_right]
    simp only [encodeChunks, List.length_append, List.length_cons] at ih ⊢
    rw [hpad]
    omega

theorem decodeChunks_encodeChunks (s : Str) (h : ∀ c ∈ s, c ≤ 255) :
    decodeChunks (encodeChunks s) = some s := by
  induction s using encodeChunks.induct with
  | case1 => rfl
  | case2 a =>
    have ha : a ≤ 255 := h a (by simp)
    simp only [encodeChunks, decodeChunks]
    rw [b64val_b64chr _ (by omega), b64val_b64chr _ (by omega)]
    simp only [Option.some.injEq, List.cons.injEq, and_true]
    omega
  | case3 a b =>
    have ha : a ≤ 255 := h a (by simp)
    have hb : b ≤ 255 := h b (by simp)
    simp only [encodeChunks, decodeChunks]
    rw [b64val_b64chr _ (by omega), b64val_b64chr _ (by omega), b64val_b64chr _ (by omega)]
    simp only [Option.some.injEq, List.cons.injEq, and_true]
    constructor <;> omega
  | case4 a b c rest ih =>
    have ha : a ≤ 255 := h a (by simp)
    have hb : b ≤ 255 := h b (by simp)
    have hc : c ≤ 255 := h c (by simp)
    have hrest : ∀ u ∈ rest, u ≤ 255 := fun u hu => h u (by simp [hu])
    simp only [encodeChunks, decodeChunks]
    rw [b64val_b64chr _ (by omega), b64val_b64chr _ (by omega), b64val_b64chr _ (by omega),
        b64val_b64chr _ (by omega)]
    simp [ih hrest]
    omega

theorem stripPad_no61 (s : Str) (h : ∀ c ∈ s, c ≠ 61) : stripPad s = s := by
  unfold stripPad
  cases hrev : s.reverse with
  | nil => rfl
  | cons c t =>
    have hc : c ≠ 61 := h c (by rw [← List.mem_reverse, hrev]; simp)
    cases t with
    | nil => simp [hc]
    | cons c2 t2 => simp [hc]

theorem stripPad_pad1 (enc : Str) (hne : enc ≠ []) (h : ∀ c ∈ enc, c ≠ 61) :
    stripPad (enc ++ [61]) = enc := by
  unfold stripPad
  have hrw : (enc ++ [61]).reverse = 61 :: enc.reverse := by simp
  rw [hrw]
  cases hrev : enc.reverse with
  | nil => exact absurd (by simpa using congrArg List.reverse hrev) hne
  | cons c t =>
    have hc : c ≠ 61 := h c (by rw [← List.mem_reverse, hrev]; simp)
    simp only [if_pos rfl, if_neg hc]
    rw [← hrev, List.reverse_reverse]
    simp

theorem stripPad_pad2 (enc : Str) (h : ∀ c ∈ enc, c ≠ 61) :
    stripPad (enc ++ [61, 61]) = enc := by
  unfold stripPad
  have hrw : (enc ++ [61, 61]).reverse = 61 :: 61 :: enc.reverse := by simp
  rw [hrw]
  simp

theorem encodeChunks_ne61 (s : Str) : ∀ c ∈ encodeChunks s, c ≠ 61 := by
  intro c hc
  obtain ⟨n, rfl⟩ := encodeChunks_mem s c hc
  exact (b64chr_alpha n).2.1

/-- atob inverts btoa on latin-1 strings. -/
theorem atob_btoa (s : Str) (h : ∀ c ∈ s, c ≤ 255) :
    ∃ b, btoa s = some b ∧ atob b = some s := by
  have hall : s.all (fun c => c ≤ 255) = true := by
    rw [List.all_eq_true]
    intro u hu
    simp [h u hu]
  refine ⟨encodeChunks s ++ b64pad s.length, by simp [btoa, hall], ?_⟩
  unfold atob
  have hfilter : (encodeChunks s ++ b64pad s.length).filter (fun c => ¬ isAsciiWs c) =
      encodeChunks s ++ b64pad s.length := by
    rw [List.filter_append, encodeChunks_no_ws]
    congr 1
    unfold b64pad
    split_ifs <;> simp [isAsciiWs]
  rw [hfilter]
  simp only [encodeChunks_len s, if_pos]
  have hstrip : stripPad (encodeChunks s ++ b64pad s.length) = encodeChunks s := by
    unfold b64pad
    split_ifs with h1 h2
    · exact stripPad_pad2 _ (encodeChunks_ne61 s)
    · apply stripPad_pad1 _ ?_ (encodeChunks_ne61 s)
      match s, h2 with
      | [], hx => simp at hx
      | [a], hx => simp at hx
      | a :: b :: rest, _ => cases rest <;> simp [encodeChunks]
    · rw [List.append_nil]
      exact stripPad_no61 _ (encodeChunks_ne61 s)
  rw [hstrip]
  exact decodeChunks_encodeChunks s h

/-! ## encodeURIComponent / decodeURIComponent

encodeURIComponent keeps unreserved characters, UTF-8-encodes everything
else (combining surrogate pairs, throwing on lone surrogates: none) and
percent-escapes each byte with uppercase hex.  decodeURIComponent parses
percent escapes, strictly decoding UTF-8 multibyte sequences back to code
units (surrogate pairs above the BMP) and fails on malformed input. -/

/-- The uriUnescaped set of encodeURIComponent. -/
def isUnresComp (c : Nat) : Bool :=
  (65 ≤ c ∧ c ≤ 90) ∨ (97 ≤ c ∧ c ≤ 122) ∨ (48 ≤ c ∧ c ≤ 57) ∨
  c = 45 ∨ c = 95 ∨ c = 46 ∨ c = 33 ∨ c = 126 ∨ c = 42 ∨ c = 39 ∨ c = 40 ∨ c = 41

/-- Uppercase hex digit character. -/
def hexUp (n : Nat) : Nat := if n < 10 then 48 + n else 55 + n

/-- Percent escape of one byte. -/
def pctByte (b : Nat) : Str := [37, hexUp (b / 16), hexUp (b % 16)]

/-- UTF-8 bytes of a code point. -/
def utf8Bytes (cp : Nat) : List Nat :=
  if cp < 128 then [cp]
  else if cp < 2048 then [192 + cp / 64, 128 + cp % 64]
  else if cp < 65536 then [224 + cp / 4096, 128 + cp / 64 % 64, 128 + cp % 64]
  else [240 + cp / 262144, 128 + cp / 4096 % 64, 128 + cp / 64 % 64, 128 + cp % 64]

/-- The encodeURIComponent builtin; none models a thrown URIError on a
lone surrogate. -/
def encodeURIComp : Str → Option Str
  | [] => some []
  | [c] =>
    if isUnresComp c then some [c]
    else if 55296 ≤ c ∧ c < 57344 then none
    else some ((utf8Bytes c).flatMap pctByte)
  | c :: d :: rest =>
    if isUnresComp c then (encodeURIComp (d :: rest)).map (fun e => c :: e)
    else if 55296 ≤ c ∧ c < 56320 then
      (if 56320 ≤ d ∧ d < 57344 then
        (encodeURIComp rest).map
          (fun e => (utf8Bytes ((c - 55296) * 1024 + (d - 56320) + 65536)).flatMap pctByte ++ e)
       else none)
    else if 56320 ≤ c ∧ c < 57344 then none
    else (encodeURIComp (d :: rest)).map (fun e => (utf8Bytes c).flatMap pctByte ++ e)

/-- Parse one percent-escaped byte after the percent sign. -/
def pctDecodeByte : Str → Option (Nat × Str)
  | h1 :: h2 :: r =>
    match hexVal h1, hexVal h2 with
    | some x, some y => some (x * 16 + y, r)
    | _, _ => none
  | _ => none

/-- Fuel-driven decodeURIComponent body. -/
def decodeURIGo : Nat → Str → Option Str
  | 0, _ => none
  | _ + 1, [] => some []
  | fuel + 1, c :: rest =>
    if c = 37 then
      match pctDecodeByte rest with
      | none => none
      | some (b, r1) =>
        if b < 128 then (decodeURIGo fuel r1).map (fun t => b :: t)
        else if 194 ≤ b ∧ b ≤ 223 then
          match r1 with
          | 37 :: r2 =>
            match pctDecodeByte r2 with
            | none => none
            | some (b2, r3) =>
              if 128 ≤ b2 ∧ b2 ≤ 191 then
                (decodeURIGo fuel r3).map (fun t => ((b - 192) * 64 + (b2 - 128)) :: t)
              else none
          | _ => none
        else if 224 ≤ b ∧ b ≤ 239 then
          match r1 with
          | 37 :: r2 =>
            match pctDecodeByte r2 with
            | none => none
            | some (b2, r3) =>
              match r3 with
              | 37 :: r4 =>
                match pctDecodeByte r4 with
                | none => none
                | some (b3, r5) =>
                  if 128 ≤ b2 ∧ b2 ≤ 191 ∧ 128 ≤ b3 ∧ b3 ≤ 191 ∧
                      2048 ≤ (b - 224) * 4096 + (b2 - 128) * 64 + (b3 - 128) ∧
                      ¬(55296 ≤ (b - 224) * 4096 + (b2 - 128) * 64 + (b3 - 128) ∧
                        (b - 224) * 4096 + (b2 - 128) * 64 + (b3 - 128) < 57344) then
                    (decodeURIGo fuel r5).map
                      (fun t => ((b - 224) * 4096 + (b2 - 128) * 64 + (b3 - 128)) :: t)
                  else none
              | _ => none
          | _ => none
        else if 240 ≤ b ∧ b ≤ 244 then
          match r1 with
          | 37 :: r2 =>
            match pctDecodeByte r2 with
            | none => none
            | some (b2, r3) =>
              match r3 with
              | 37 :: r4 =>
                match pctDecodeByte r4 with
                | none => none
                | some (b3, r5) =>
                  match r5 with
                  | 37 :: r6 =>
                    match pctDecodeByte r6 with
                    | none => none
                    | some (b4, r7) =>
                      if 128 ≤ b2 ∧ b2 ≤ 191 ∧ 128 ≤ b3 ∧ b3 ≤ 191 ∧ 128 ≤ b4 ∧ b4 ≤ 191 ∧
                          65536 ≤ (b - 240) * 262144 + (b2 - 128) * 4096 + (b3 - 128) * 64 + (b4 - 128) ∧
                          (b - 240) * 262144 + (b2 - 128) * 4096 + (b3 - 128) * 64 + (b4 - 128) ≤ 1114111 then
                        (decodeURIGo fuel r7).map
                          (fun t =>
                            (55296 + ((b - 240) * 262144 + (b2 - 128) * 4096 + (b3 - 128) * 64 + (b4 - 128) - 65536) / 1024) ::
                            (56320 + ((b - 240) * 262144 + (b2 - 128) * 4096 + (b3 - 128) * 64 + (b4 - 128) - 65536) % 1024) :: t)
                      else none
                  | _ => none
              | _ => none
          | _ => none
        else none
    else (decodeURIGo fuel rest).map (fun t => c :: t)

/-- The decodeURIComponent builtin; none models a thrown URIError. -/
def decodeURIComp (s : Str) : Option Str := decodeURIGo (s.length + 1) s

theorem hexVal_hexUp (m : Nat) (hm : m < 16) : hexVal (hexUp m) = some m := by
  interval_cases m <;> rfl

theorem decodeURIGo_pct (c : Nat) (hc : c < 128) (f : Nat) (tail : Str) :
    decodeURIGo (f + 1) (37 :: hexUp (c / 16) :: hexUp (c % 16) :: tail) =
      (decodeURIGo f tail).map (fun t => c :: t) := by
  simp only [decodeURIGo, if_pos rfl, pctDecodeByte]
  rw [hexVal_hexUp _ (by omega), hexVal_hexUp _ (by omega)]
  simp only []
  rw [show c / 16 * 16 + c % 16 = c by omega, if_pos hc]
  simp

theorem decodeURIGo_raw (c : Nat) (hc : c ≠ 37) (f : Nat) (tail : Str) :
    decodeURIGo (f + 1) (c :: tail) = (decodeURIGo f tail).map (fun t => c :: t) := by
  simp only [decodeURIGo]
  rw [if_neg hc]

/-- encodeURIComponent succeeds on ASCII input and decodeURIComponent
inverts it. -/
theorem uri_roundtrip_ascii (s : Str) : (∀ c ∈ s, c < 128) →
    ∃ e, encodeURIComp s = some e ∧ s.length ≤ e.length ∧
      ∀ fuel, e.length + 1 ≤ fuel → decodeURIGo fuel e = some s := by
  induction s using encodeURIComp.induct with
  | case1 =>
    intro h
    exact ⟨[], rfl, le_rfl, by
      intro fuel hf
      obtain ⟨g, rfl⟩ : ∃ g, fuel = g + 1 := ⟨fuel - 1, by omega⟩
      rfl⟩
  | case2 c hunres =>
    intro h
    have hc : c < 128 := h c (by simp)
    have hc37 : c ≠ 37 := by
      intro hh
      subst hh
      simp [isUnresComp] at hunres
    refine ⟨[c], by rw [encodeURIComp, if_pos hunres], by simp, ?_⟩
    intro fuel hf
    obtain ⟨g, rfl⟩ : ∃ g, fuel = g + 2 := ⟨fuel - 2, by simp at hf; omega⟩
    rw [show g + 2 = (g + 1) + 1 by omega, decodeURIGo_raw c hc37]
    obtain ⟨g2, hg2⟩ : ∃ g2, g + 1 = g2 + 1 := ⟨g, rfl⟩
    rw [show decodeURIGo (g + 1) [] = some [] from rfl]
    rfl
  | case3 c hunres hsur =>
    intro h
    have hc : c < 128 := h c (by simp)
    exact absurd hsur (by omega)
  | case4 c hunres hsur =>
    intro h
    have hc : c < 128 := h c (by simp)
    refine ⟨(utf8Bytes c).flatMap pctByte,
      by rw [encodeURIComp, if_neg (by simp [hunres]), if_neg hsur], ?_, ?_⟩
    · simp [utf8Bytes, if_pos hc, pctByte]
    · intro fuel hf
      simp only [utf8Bytes, if_pos hc, List.flatMap_cons, List.flatMap_nil, List.append_nil,
        pctByte] at hf ⊢
      obtain ⟨g, rfl⟩ : ∃ g, fuel = g + 2 := ⟨fuel - 2, by simp at hf; omega⟩
      rw [show g + 2 = (g + 1) + 1 by omega, decodeURIGo_pct c hc]
      rw [show decodeURIGo (g + 1) [] = some [] from rfl]
      rfl
  | case5 c d rest hunres ih =>
    intro h
    have hc : c < 128 := h c (by simp)
    have hc37 : c ≠ 37 := by
      intro hh
      subst hh
      simp [isUnresComp] at hunres
    obtain ⟨e, he, hlen, hdec⟩ := ih (fun u hu => h u (by simp at hu ⊢; tauto))
    refine ⟨c :: e, by rw [encodeURIComp, if_pos hunres, he]; rfl,
      by have := hlen; simp only [List.length_cons] at this ⊢; omega, ?_⟩
    intro fuel hf
    simp only [List.length_cons] at hf
    obtain ⟨g, rfl⟩ : ∃ g, fuel = g + 1 := ⟨fuel - 1, by omega⟩
    rw [decodeURIGo_raw c hc37, hdec g (by omega)]
    rfl
  | case6 c d rest hunres hsur hlo ih =>
    intro h
    have hc : c < 128 := h c (by simp)
    exact absurd hsur (by omega)
  | case7 c d rest hunres hsur hlo =>
    intro h
    have hc : c < 128 := h c (by simp)
    exact absurd hsur (by omega)
  | case8 c d rest hunres hsur hlo2 =>
    intro h
    have hc : c < 128 := h c (by simp)
    exact absurd hlo2 (by omega)
  | case9 c d rest hunres hsur hlo2 ih =>
    intro h
    have hc : c < 128 := h c (by simp)
    obtain ⟨e, he, hlen, hdec⟩ := ih (fun u hu => h u (by simp at hu ⊢; tauto))
    refine ⟨(utf8Bytes c).flatMap pctByte ++ e,
      by rw [encodeURIComp, if_neg (by simp [hunres]), if_neg hsur, if_neg hlo2, he]; rfl,
      ?_, ?_⟩
    · have := hlen
      simp only [utf8Bytes, if_pos hc, List.flatMap_cons, List.flatMap_nil, List.append_nil,
        pctByte, List.length_append, List.length_cons] at this ⊢
      omega
    · intro fuel hf
      simp only [utf8Bytes, if_pos hc, List.flatMap_cons, List.flatMap_nil, List.append_nil,
        pctByte, List.length_append, List.length_cons] at hf ⊢
      obtain ⟨g, rfl⟩ : ∃ g, fuel = g + 1 := ⟨fuel - 1, by simp at hf; omega⟩
      simp only [List.cons_append, List.nil_append]
      rw [decodeURIGo_pct c hc, hdec g (by simp at hf; omega)]
      rfl

/-- decodeURIComponent inverts encodeURIComponent on ASCII strings. -/
theorem decodeURIComp_encode (s : Str) (h : ∀ c ∈ s, c < 128) :
    ∃ e, encodeURIComp s = some e ∧ s.length ≤ e.length ∧ decodeURIComp e = some s := by
  obtain ⟨e, he, hlen, hdec⟩ := uri_roundtrip_ascii s h
  exact ⟨e, he, hlen, hdec (e.length + 1) le_rfl⟩

/-! ## The share codec (URLDataTranscoder, src/unnamed/part_001)

compile: JSON.stringify, then btoa, then encodeURIComponent, any thrown
error caught and turned into null (none).  decompile: reject non-strings
and the empty string, then decodeURIComponent, atob, JSON.parse, any
thrown error caught and turned into null (none). -/

/-- A share payload as built in handleShare: content and version strings. -/
structure Payload where
  content : Str
  version : Str

/-- Code units of the key named content. -/
def contentKey : Str := [99, 111, 110, 116, 101, 110, 116]

/-- Code units of the key named version. -/
def versionKey : Str := [118, 101, 114, 115, 105, 111, 110]

/-- The object literal passed to compile: property order content, version. -/
def payloadJson (p : Payload) : Json :=
  .obj [(contentKey, .str p.content), (versionKey, .str p.version)]

/-- URLDataTranscoder.compile. -/
def compile (p : Payload) : Option Str :=
  match btoa (stringifyJson (payloadJson p)) with
  | none => none
  | some b => encodeURIComp b

/-- URLDataTranscoder.decompile (the non-string input guard cannot arise
in this typed model; the empty-string guard is explicit). -/
def decompile (s : Str) : Option Json :=
  if s.length = 0 then none
  else
    match decodeURIComp s with
    | none => none
    | some b =>
      match atob b with
      | none => none
      | some j => jsonParse j

theorem escStr_le255 (s : Str) : (∀ c ∈ s, c ≤ 255) → ∀ c ∈ escStr s, c ≤ 255 := by
  induction s using escStr.induct with
  | case1 => intro _ c hc; cases hc
  | case2 c hsimp =>
    intro h u hu
    rw [escStr, if_pos hsimp] at hu
    simp only [escSimple, decide_eq_true_eq] at hsimp
    rcases hsimp with rfl | rfl | rfl | rfl | rfl | rfl | rfl <;> (simp [escSeq] at hu; omega)
  | case3 c hsimp hlt =>
    intro h u hu
    rw [escStr, if_neg (by simp [hsimp]), if_pos hlt] at hu
    simp only [uEsc, hexChar, List.mem_cons] at hu
    rcases hu with rfl | rfl | rfl | rfl | rfl | rfl | hu
    · omega
    · omega
    · split_ifs <;> omega
    · split_ifs <;> omega
    · split_ifs <;> omega
    · split_ifs <;> omega
    · cases hu
  | case4 c hsimp hlt hsur =>
    intro h u hu
    exact absurd (h c (by simp)) (by omega)
  | case5 c hsimp hlt hsur =>
    intro h u hu
    rw [escStr, if_neg (by simp [hsimp]), if_neg hlt, if_neg hsur] at hu
    rw [List.mem_singleton] at hu
    subst hu
    exact h _ (by simp)
  | case6 c d rest hsimp ih =>
    intro h u hu
    rw [escStr, if_pos hsimp] at hu
    rw [List.mem_append] at hu
    rcases hu with hu | hu
    · simp only [escSimple, decide_eq_true_eq] at hsimp
      rcases hsimp with rfl | rfl | rfl | rfl | rfl | rfl | rfl <;> (simp [escSeq] at hu; omega)
    · exact ih (fun x hx => h x (by simp at hx ⊢; tauto)) u hu
  | case7 c d rest hsimp hlt ih =>
    intro h u hu
    rw [escStr, if_neg (by simp [hsimp]), if_pos hlt] at hu
    rw [List.mem_append] at hu
    rcases hu with hu | hu
    · simp only [uEsc, hexChar, List.mem_cons] at hu
      rcases hu with rfl | rfl | rfl | rfl | rfl | rfl | hu
      · omega
      · omega
      · split_ifs <;> omega
      · split_ifs <;> omega
      · split_ifs <;> omega
      · split_ifs <;> omega
      · cases hu
    · exact ih (fun x hx => h x (by simp at hx ⊢; tauto)) u hu
  | case8 c d rest hsimp hlt hhi hlo ih =>
    intro h u hu
    exact absurd (h c (by simp)) (by omega)
  | case9 c d rest hsimp hlt hhi hlo ih =>
    intro h u hu
    exact absurd (h c (by simp)) (by omega)
  | case10 c d rest hsimp hlt hhi hlo2 ih =>
    intro h u hu
    exact absurd (h c (by simp)) (by omega)
  | case11 c d rest hsimp hlt hhi hlo2 ih =>
    intro h u hu
    rw [escStr, if_neg (by simp [hsimp]), if_neg hlt, if_neg hhi, if_neg hlo2] at hu
    rw [List.mem_cons] at hu
    rcases hu with rfl | hu
    · exact h u (by simp)
    · exact ih (fun x hx => h x (by simp at hx ⊢; tauto)) u hu

theorem payload_stringify_le255 (p : Payload)
    (hc : ∀ c ∈ p.content, c ≤ 255) (hv : ∀ c ∈ p.version, c ≤ 255) :
    ∀ c ∈ stringifyJson (payloadJson p), c ≤ 255 := by
  intro c hmem
  have h1 := escStr_le255 p.content hc
  have h2 := escStr_le255 p.version hv
  simp only [payloadJson, stringifyJson, stringifyField, stringifyFTail, List.append_nil,
    List.cons_append, List.nil_append, List.mem_cons, List.mem_append,
    contentKey, versionKey,
    show escStr [99, 111, 110, 116, 101, 110, 116] = [99, 111, 110, 116, 101, 110, 116] from rfl,
    show escStr [118, 101, 114, 115, 105, 111, 110] = [118, 101, 114, 115, 105, 111, 110] from rfl,
    List.not_mem_nil] at hmem
  casesm* _ ∨ _
  all_goals first
    | omega
    | exact h1 c (by assumption)
    | exact h2 c (by assumption)
    | exact absurd (by assumption) (by simp)

theorem encodeChunks_ne_nil (s : Str) (h : s ≠ []) : encodeChunks s ≠ [] := by
  match s, h with
  | [a], _ => simp [encodeChunks]
  | [a, b], _ => simp [encodeChunks]
  | a :: b :: c :: rest, _ => simp [encodeChunks]

theorem payloadJson_wf (p : Payload)
    (hc : ∀ c ∈ p.content, c ≤ 255) (hv : ∀ c ∈ p.version, c ≤ 255) :
    jWf (payloadJson p) := by
  rw [payloadJson, jWf, jWfF, jWfF, jWfF]
  refine ⟨by intro c hcm; simp [contentKey] at hcm; omega,
    by intro c hcm; exact lt_of_le_of_lt (hc c hcm) (by omega),
    by intro c hcm; simp [versionKey] at hcm; omega,
    by intro c hcm; exact lt_of_le_of_lt (hv c hcm) (by omega),
    trivial⟩

/-- Round trip of the full codec pipeline on latin-1 payloads. -/
theorem share_roundtrip (p : Payload)
    (hc : ∀ c ∈ p.content, c ≤ 255) (hv : ∀ c ∈ p.version, c ≤ 255) :
    ∃ tok, compile p = some tok ∧ decompile tok = some (payloadJson p) := by
  have hjs : ∀ c ∈ stringifyJson (payloadJson p), c ≤ 255 :=
    payload_stringify_le255 p hc hv
  obtain ⟨b, hbtoa, hatob⟩ := atob_btoa (stringifyJson (payloadJson p)) hjs
  have hbdef : b = encodeChunks (stringifyJson (payloadJson p)) ++
      b64pad (stringifyJson (payloadJson p)).length := by
    unfold btoa at hbtoa
    rw [if_pos] at hbtoa
    · exact (Option.some.injEq _ _ ▸ hbtoa).symm
    · rw [List.all_eq_true]
      intro u hu
      simp [hjs u hu]
  have hb128 : ∀ c ∈ b, c < 128 := by
    intro c hcm
    rw [hbdef, List.mem_append] at hcm
    rcases hcm with hcm | hcm
    · obtain ⟨n, rfl⟩ := encodeChunks_mem _ c hcm
      exact (b64chr_alpha n).2.2
    · unfold b64pad at hcm
      split_ifs at hcm <;> simp at hcm <;> omega
  obtain ⟨e, henc, hlen, hdec⟩ := decodeURIComp_encode b hb128
  have hbne : b ≠ [] := by
    rw [hbdef]
    intro hcontra
    rw [List.append_eq_nil] at hcontra
    exact encodeChunks_ne_nil _ (by simp [payloadJson, stringifyJson]) hcontra.1
  have hene : e.length ≠ 0 := by
    intro hzero
    have : b.length = 0 := by omega
    exact hbne (List.eq_nil_of_length_eq_zero this)
  refine ⟨e, ?_, ?_⟩
  · unfold compile
    rw [hbtoa]
    exact henc
  · unfold decompile
    rw [if_neg hene]
    simp only [hdec, hatob]
    exact jsonParse_stringify (payloadJson p) (payloadJson_wf p hc hv)

/-- A payload whose content is the euro sign (U+20AC): valid text whose
serialization leaves the latin-1 range accepted by btoa. -/
def pEuro : Payload := ⟨[8364], [48, 46, 51, 46, 49]⟩

/-- Claim C1, as stated, is false: for the payload with content U+20AC
(valid text) and version 0.3.1, compile returns the failure value null
(btoa throws on code units above 255), so decompile applied to the result
does not reproduce the payload. -/
theorem c1_counterexample :
    (Option.bind (compile pEuro) decompile) ≠ some (payloadJson pEuro) ∧
    SWf pEuro.content ∧ SWf pEuro.version := by
  refine ⟨?_, by decide, by decide⟩
  have h : compile pEuro = none := by rfl
  rw [h]
  simp

/-- Claim C1 (amended): the share codec round trip holds for every payload
whose content and version consist of latin-1 code units (at most 255):
compile yields a token and decompile maps it back to the exact payload
object, including exact equality of the content string. -/
theorem c1_share_roundtrip (p : Payload)
    (hc : ∀ c ∈ p.content, c ≤ 255) (hv : ∀ c ∈ p.version, c ≤ 255) :
    ∃ tok, compile p = some tok ∧ decompile tok = some (payloadJson p) :=
  share_roundtrip p hc hv

/-- Witness for the amended claim C1 at the payload from the specification
example: content is the text of const x = 1; and version is 0.3.1. -/
theorem c1_share_roundtrip_witness :
    (∀ c ∈ ([99, 111, 110, 115, 116, 32, 120, 32, 61, 32, 49, 59] : Str), c ≤ 255) ∧
    ∃ tok, compile ⟨[99, 111, 110, 115, 116, 32, 120, 32, 61, 32, 49, 59], [48, 46, 51, 46, 49]⟩ = some tok ∧
      decompile tok = some (payloadJson ⟨[99, 111, 110, 115, 116, 32, 120, 32, 61, 32, 49, 59], [48, 46, 51, 46, 49]⟩) :=
  ⟨by decide,
   c1_share_roundtrip ⟨[99, 111, 110, 115, 116, 32, 120, 32, 61, 32, 49, 59], [48, 46, 51, 46, 49]⟩
     (by decide) (by decide)⟩

/-- Code units of the string not-a-valid-token. -/
def notAValidToken : Str :=
  [110, 111, 116, 45, 97, 45, 118, 97, 108, 105, 100, 45, 116, 111, 107, 101, 110]

/-- Claim C7: decompile is total: for every input string it returns either
a decoded value or the explicit failure value none (no stage throws past
the boundary; every stage is modelled as an Option-valued function whose
failures the catch converts to null); in particular the malformed token
not-a-valid-token yields the failure value (its base64 decode rejects
the hyphen). -/
theorem c7_decompile_total :
    (∀ s : Str, decompile s = none ∨ ∃ v, decompile s = some v) ∧
    decompile notAValidToken = none := by
  constructor
  · intro s
    cases h : decompile s with
    | none => exact Or.inl rfl
    | some v => exact Or.inr ⟨v, rfl⟩
  · rfl

/-- Claim C10: the transport encoding accepts only latin-1 text, so any
payload whose JSON serialization contains a code unit above 255 makes
compile return the failure value null (btoa rejects it) rather than a
token, without throwing past the boundary. -/
theorem c10_compile_non_latin1 (p : Payload) (c : Nat)
    (hmem : c ∈ stringifyJson (payloadJson p)) (hbig : 255 < c) :
    compile p = none := by
  unfold compile
  have hall : (stringifyJson (payloadJson p)).all (fun u => u ≤ 255) = false := by
    rw [List.all_eq_false]
    exact ⟨c, hmem, by simp; omega⟩
  unfold btoa
  rw [if_neg (by simp [hall])]

/-- Witness for claim C10 at the euro-sign payload: the serialization
contains code unit 8364 and compile fails. -/
theorem c10_compile_non_latin1_witness :
    8364 ∈ stringifyJson (payloadJson pEuro) ∧ 255 < 8364 ∧ compile pEuro = none :=
  ⟨by decide, by decide, c10_compile_non_latin1 pEuro 8364 (by decide) (by decide)⟩

/-! ## The document store (FileSystem, src/unnamed/part_000)

localStorage is modelled as an ordered association list of key/value
strings with unique keys: setItem replaces in place or appends, key(i)
indexes the list, removeItem deletes by key.  Effects (Date.now, the
generated id) are explicit parameters.  Storage quota failures are
environmental and not modelled: setItem always succeeds here. -/

/-- The localStorage state: key/value pairs in slot order. -/
abbrev Store := List (Str × Str)

/-- localStorage.getItem. -/
def getItem (k : Str) : Store → Option Str
  | [] => none
  | kv :: t => if kv.1 = k then some kv.2 else getItem k t

/-- localStorage.setItem: replace in place, or append a new slot. -/
def setItem (k v : Str) : Store → Store
  | [] => [(k, v)]
  | kv :: t => if kv.1 = k then (k, v) :: t else kv :: setItem k v t

/-- localStorage.removeItem. -/
def removeKey (k : Str) : Store → Store
  | [] => []
  | kv :: t => if kv.1 = k then t else kv :: removeKey k t

/-- Error classes thrown by the FileSystem methods. -/
inductive FsErr where
  | invalidArgument
  | notFound
  | corrupted
  | emptyId
  | typeErr
  deriving DecidableEq

/-- Whether a numeric lexeme denotes zero: every mantissa character is a
zero digit, a dot, or a minus sign (fractional nonzero values below one,
such as 0.5, are not produced by this code base and are not modelled as
nonzero). -/
def numLexZero (lex : Str) : Bool :=
  (lex.takeWhile (fun c => c ≠ 101 ∧ c ≠ 69)).all (fun c => c = 48 ∨ c = 46 ∨ c = 45)

/-- JavaScript truthiness of a parsed JSON value. -/
def jsTruthy : Json → Bool
  | .null => false
  | .bool b => b
  | .num lex => ¬ numLexZero lex
  | .str s => ¬ s.isEmpty
  | .arr _ => true
  | .obj _ => true

/-- First binding of a key in an object field list. -/
def lookupF : List (Str × Json) → Str → Option Json
  | [], _ => none
  | kv :: fs, k => if kv.1 = k then some kv.2 else lookupF fs k

/-- Property assignment on a field list: overwrite in place or append. -/
def setField : List (Str × Json) → Str → Json → List (Str × Json)
  | [], k, v => [(k, v)]
  | kv :: fs, k, v => if kv.1 = k then (k, v) :: fs else kv :: setField fs k v

/-- Property read on a value: undefined (none) off objects. -/
def objGet (j : Json) (k : Str) : Option Json :=
  match j with
  | .obj fs => lookupF fs k
  | _ => none

/-- Property assignment on a value: silently ignored on non-objects
(non-strict mode). -/
def jsSetProp (j : Json) (k : Str) (v : Json) : Json :=
  match j with
  | .obj fs => .obj (setField fs k v)
  | other => other

/-- Object spread of a value: fields of an object, empty otherwise
(string spread into indexed properties is not modelled; no caller spreads
a string). -/
def spreadFields : Json → List (Str × Json)
  | .obj fs => fs
  | _ => []

/-- The object spread merge of two field lists, as in a spread literal:
existing keys keep their position and take the second list value, new
keys of the second list are appended in order. -/
def mergeFields (a b : List (Str × Json)) : List (Str × Json) :=
  a.map (fun kv => (kv.1, (lookupF b kv.1).getD kv.2)) ++
    b.filter (fun kv => ! a.any (fun kv2 => kv2.1 == kv.1))

/-- Code units of the key id. -/
def idKey : Str := [105, 100]

/-- Code units of the key name. -/
def nameKey : Str := [110, 97, 109, 101]

/-- Code units of the key boardVersion. -/
def boardVersionKey : Str := [98, 111, 97, 114, 100, 86, 101, 114, 115, 105, 111, 110]

/-- Code units of the key metadata. -/
def metadataKey : Str := [109, 101, 116, 97, 100, 97, 116, 97]

/-- Code units of the key createdAt. -/
def createdAtKey : Str := [99, 114, 101, 97, 116, 101, 100, 65, 116]

/-- Code units of the key updatedAt. -/
def updatedAtKey : Str := [117, 112, 100, 97, 116, 101, 100, 65, 116]

/-- A stored document record in structured form; extraMeta holds any
further metadata keys merged in by updates. -/
structure FileRecord where
  id : Str
  name : Str
  content : Str
  boardVersion : Str
  createdAt : Nat
  updatedAt : Nat
  extraMeta : List (Str × Json) := []

/-- The metadata object of a record, in creation field order. -/
def metaFields (r : FileRecord) : List (Str × Json) :=
  (createdAtKey, .num (natLex r.createdAt)) :: (updatedAtKey, .num (natLex r.updatedAt)) ::
    r.extraMeta

/-- The record object in creation field order, as built by createFile. -/
def recordJson (r : FileRecord) : Json :=
  .obj [(idKey, .str r.id), (nameKey, .str r.name), (contentKey, .str r.content),
        (boardVersionKey, .str r.boardVersion), (metadataKey, .obj (metaFields r))]

/-- Wellformedness of a structured record. -/
def RecordWf (r : FileRecord) : Prop :=
  SWf r.id ∧ SWf r.name ∧ SWf r.content ∧ SWf r.boardVersion ∧ jWfF r.extraMeta

/-- FileSystem.createFile: reject an empty name, then write the full
record under the namespaced key; fileId stands for the generated unique
id and now for Date.now(). -/
def createFileM (ns name content boardVersion fileId : Str) (now : Nat) (s : Store) :
    Except FsErr (Str × Store) :=
  if name.isEmpty then .error .invalidArgument
  else if fileId.isEmpty then .error .emptyId
  else .ok (fileId, setItem (ns ++ fileId)
    (stringifyJson (recordJson ⟨fileId, name, content, boardVersion, now, now, []⟩)) s)

/-- FileSystem.loadFile: none for a missing record, error for undecodable
stored bytes, otherwise the parsed value. -/
def loadFileM (ns fileId : Str) (s : Store) : Except FsErr (Option Json) :=
  if fileId.isEmpty then .error .emptyId
  else
    match getItem (ns ++ fileId) s with
    | none => .ok none
    | some stored =>
      match jsonParse stored with
      | none => .error .corrupted
      | some j => .ok (some j)

/-- An updateFile patch: hasOwnProperty presence is modelled by Option;
metadata is present only when it passes the object type test. -/
structure Patch where
  content : Option Str := none
  boardVersion : Option Str := none
  name : Option Str := none
  metadata : Option (List (Str × Json)) := none

/-- Tail of updateFile: optional metadata merge, then, if anything was
updated, force metadata.updatedAt to now (a TypeError if metadata is
missing or null) and write back. -/
def finishUpdate (key : Str) (fd : Json) (upd : Bool) (pm : Option (List (Str × Json)))
    (now : Nat) (s : Store) : Except FsErr Store :=
  let st : Json × Bool :=
    match pm with
    | some m =>
      (jsSetProp fd metadataKey
        (.obj (mergeFields (spreadFields ((objGet fd metadataKey).getD .null)) m)), true)
    | none => (fd, upd)
  if st.2 then
    match objGet st.1 metadataKey with
    | some (.obj mfs) =>
      .ok (setItem key
        (stringifyJson (jsSetProp st.1 metadataKey
          (.obj (setField mfs updatedAtKey (.num (natLex now)))))) s)
    | some .null => .error .typeErr
    | some _ => .ok (setItem key (stringifyJson st.1) s)
    | none => .error .typeErr
  else .ok s

/-- FileSystem.updateFile: look up and decode the record, apply the
supplied fields in order (content, boardVersion, name with its emptiness
check, metadata merge), and write back only if something was updated. -/
def updateFileM (ns fileId : Str) (patch : Patch) (now : Nat) (s : Store) :
    Except FsErr Store :=
  if fileId.isEmpty then .error .emptyId
  else
    let key := ns ++ fileId
    match getItem key s with
    | none => .error .notFound
    | some stored =>
      match jsonParse stored with
      | none => .error .corrupted
      | some fd0 =>
        if jsTruthy fd0 = false then .error .corrupted
        else
          let st1 : Json × Bool :=
            match patch.content with
            | some c => (jsSetProp fd0 contentKey (.str c), true)
            | none => (fd0, false)
          let st2 : Json × Bool :=
            match patch.boardVersion with
            | some b => (jsSetProp st1.1 boardVersionKey (.str b), true)
            | none => st1
          match patch.name with
          | some n =>
            if n.isEmpty then .error .invalidArgument
            else finishUpdate key (jsSetProp st2.1 nameKey (.str n)) true patch.metadata now s
          | none => finishUpdate key st2.1 st2.2 patch.metadata now s

/-- FileSystem.deleteFile. -/
def deleteFileM (ns fileId : Str) (s : Store) : Store := removeKey (ns ++ fileId) s

/-- A list entry as pushed by listFiles: id, name, boardVersion and
metadata of the record; content is omitted by construction. -/
structure Summary where
  idJ : Json
  nameJ : Json
  boardVersionJ : Option Json
  metadataJ : Json

/-- Truthiness of a property read (undefined is falsy). -/
def truthyOpt : Option Json → Bool
  | none => false
  | some j => jsTruthy j

/-- The body of the listFiles loop for one storage slot: skip keys outside
the namespace, skip undecodable values (the catch) and entries whose id,
name or metadata is missing or falsy, otherwise build the summary. -/
def entrySummary (ns : Str) (kv : Str × Str) : Option Summary :=
  if ns.isPrefixOf kv.1 then
    match jsonParse kv.2 with
    | none => none
    | some fd =>
      if jsTruthy fd ∧ truthyOpt (objGet fd idKey) ∧ truthyOpt (objGet fd nameKey) ∧
          truthyOpt (objGet fd metadataKey) then
        some ⟨(objGet fd idKey).getD .null, (objGet fd nameKey).getD .null,
              objGet fd boardVersionKey, (objGet fd metadataKey).getD .null⟩
      else none
  else none

/-- Integer value of an all-digit lexeme tail. -/
def digitsValGo : Str → Nat → Option Nat
  | [], acc => some acc
  | c :: t, acc => if isDigitC c then digitsValGo t (acc * 10 + (c - 48)) else none

/-- Integer value of a numeric lexeme when it is a plain integer; none for
fractional or exponent forms (whose comparison this model does not
decide, like the NaN comparator case). -/
def lexIntVal : Str → Option Int
  | [] => none
  | c :: t =>
    if c = 45 then
      match t with
      | [] => none
      | _ => (digitsValGo t 0).map (fun n => -(n : Int))
    else (digitsValGo (c :: t) 0).map (fun n => (n : Int))

/-- Numeric interpretation of a JSON value for the sort comparator. -/
def jsonIntVal : Json → Option Int
  | .num lex => lexIntVal lex
  | _ => none

/-- The sort key b.metadata.createdAt of a summary. -/
def createdAtVal (sm : Summary) : Option Int :=
  match sm.metadataJ with
  | .obj fs => (lookupF fs createdAtKey).bind jsonIntVal
  | _ => none

/-- Whether the comparator puts a strictly before b (negative result of
b.metadata.createdAt - a.metadata.createdAt); a missing or non-integer
key compares as zero. -/
def cmpBefore (a b : Summary) : Bool :=
  match createdAtVal a, createdAtVal b with
  | some x, some y => y < x
  | _, _ => false

/-- Stable insertion into a descending list: walk past entries that
strictly precede x, keeping equal entries (comparator zero) before the
later-inserted x. -/
def insertDesc (x : Summary) : List Summary → List Summary
  | [] => [x]
  | y :: ys => if cmpBefore y x then y :: insertDesc x ys else x :: y :: ys

/-- Stable sort by descending createdAt, the behavior ECMA-262 specifies
for Array.prototype.sort with a consistent comparator. -/
def sortDesc : List Summary → List Summary
  | [] => []
  | x :: xs => insertDesc x (sortDesc xs)

/-- FileSystem.listFiles: scan all slots in order, collect summaries of
wellformed records under the namespace, sort by createdAt descending. -/
def listFilesM (ns : Str) (s : Store) : List Summary :=
  sortDesc (s.filterMap (entrySummary ns))

/-- The backward index loop of clearAll: examine slot i-1 down to 0,
removing every key under the namespace and counting removals. -/
def clearFrom (ns : Str) : Nat → Store → Store × Nat
  | 0, s => (s, 0)
  | i + 1, s =>
    match s[i]? with
    | some kv =>
      if ns.isPrefixOf kv.1 then
        let r := clearFrom ns i (removeKey kv.1 s)
        (r.1, r.2 + 1)
      else clearFrom ns i s
    | none => clearFrom ns i s

/-- FileSystem.clearAll: the backward removal loop over all slots. -/
def clearAllM (ns : Str) (s : Store) : Store × Nat := clearFrom ns s.length s

/-! ## Store lemmas -/

/-- Reading back the key just written. -/
theorem getItem_setItem_self (k v : Str) (s : Store) :
    getItem k (setItem k v s) = some v := by
  induction s with
  | nil => simp [setItem, getItem]
  | cons kv t ih =>
    by_cases h : kv.1 = k
    · simp [setItem, h, getItem]
    · simp [setItem, h, getItem, ih]

/-- Reading another key after a write. -/
theorem getItem_setItem_other (k k' v : Str) (s : Store) (h : k' ≠ k) :
    getItem k' (setItem k v s) = getItem k' s := by
  have hne : ¬ (k = k') := fun hh => h hh.symm
  induction s with
  | nil => simp [setItem, getItem, hne]
  | cons kv t ih =>
    obtain ⟨k1, v1⟩ := kv
    by_cases hk : k1 = k
    · subst hk
      simp [setItem, getItem, hne]
    · simp only [setItem, hk, if_false, getItem]
      by_cases hk' : k1 = k' <;> simp [hk', ih]

/-- The literal keys are made of 16-bit code units. -/
theorem swf_keys : SWf idKey ∧ SWf nameKey ∧ SWf contentKey ∧ SWf boardVersionKey ∧
    SWf metadataKey ∧ SWf createdAtKey ∧ SWf updatedAtKey := by
  simp only [SWf, idKey, nameKey, contentKey, boardVersionKey, metadataKey, createdAtKey,
    updatedAtKey]
  decide

/-- A wellformed structured record serializes to a wellformed value. -/
theorem recordJson_wf (r : FileRecord) (h : RecordWf r) : jWf (recordJson r) := by
  obtain ⟨h1, h2, h3, h4, h5⟩ := h
  obtain ⟨k1, k2, k3, k4, k5, k6, k7⟩ := swf_keys
  exact ⟨k1, h1, k2, h2, k3, h3, k4, h4, k5,
    ⟨k6, ⟨r.createdAt, rfl⟩, k7, ⟨r.updatedAt, rfl⟩, h5⟩, trivial⟩

/-- C3: create/load round trip.  For every non-empty name, every content
and version and generated id made of 16-bit code units, loading the id
returned by createFile yields exactly the record written, whose name,
content and boardVersion fields equal the arguments and whose
metadata.createdAt equals metadata.updatedAt (both the creation time). -/
theorem c3_create_load (ns name content version fileId : Str) (now : Nat) (s : Store)
    (hname : name.isEmpty = false) (hid : fileId.isEmpty = false)
    (hwfn : SWf name) (hwfc : SWf content) (hwfv : SWf version) (hwfi : SWf fileId) :
    ∃ s', createFileM ns name content version fileId now s = .ok (fileId, s') ∧
      ∃ m, loadFileM ns fileId s' =
          .ok (some (recordJson ⟨fileId, name, content, version, now, now, []⟩)) ∧
        objGet (recordJson ⟨fileId, name, content, version, now, now, []⟩) nameKey =
          some (.str name) ∧
        objGet (recordJson ⟨fileId, name, content, version, now, now, []⟩) contentKey =
          some (.str content) ∧
        objGet (recordJson ⟨fileId, name, content, version, now, now, []⟩) boardVersionKey =
          some (.str version) ∧
        objGet (recordJson ⟨fileId, name, content, version, now, now, []⟩) metadataKey =
          some (.obj m) ∧
        lookupF m createdAtKey = some (.num (natLex now)) ∧
        lookupF m updatedAtKey = some (.num (natLex now)) := by
  have hwf : jWf (recordJson ⟨fileId, name, content, version, now, now, []⟩) :=
    recordJson_wf _ ⟨hwfi, hwfn, hwfc, hwfv, trivial⟩
  refine ⟨setItem (ns ++ fileId)
      (stringifyJson (recordJson ⟨fileId, name, content, version, now, now, []⟩)) s,
    by simp [createFileM, hname, hid], metaFields ⟨fileId, name, content, version, now, now, []⟩,
    ?_, rfl, rfl, rfl, rfl, rfl, rfl⟩
  simp only [loadFileM, hid, Bool.false_eq_true, if_false]
  rw [getItem_setItem_self]
  simp only []
  rw [jsonParse_stringify _ hwf]

/-- Closed instance of the create/load round trip. -/
theorem c3_create_load_witness :
    (([97] : Str).isEmpty = false) ∧ (([102] : Str).isEmpty = false) ∧
    (∃ s', createFileM [69] [97] [99] [48] [102] 5 [] = .ok ([102], s') ∧
      ∃ m, loadFileM [69] [102] s' =
          .ok (some (recordJson ⟨[102], [97], [99], [48], 5, 5, []⟩)) ∧
        objGet (recordJson ⟨[102], [97], [99], [48], 5, 5, []⟩) nameKey = some (.str [97]) ∧
        objGet (recordJson ⟨[102], [97], [99], [48], 5, 5, []⟩) contentKey = some (.str [99]) ∧
        objGet (recordJson ⟨[102], [97], [99], [48], 5, 5, []⟩) boardVersionKey =
          some (.str [48]) ∧
        objGet (recordJson ⟨[102], [97], [99], [48], 5, 5, []⟩) metadataKey = some (.obj m) ∧
        lookupF m createdAtKey = some (.num (natLex 5)) ∧
        lookupF m updatedAtKey = some (.num (natLex 5))) :=
  ⟨rfl, rfl, c3_create_load [69] [97] [99] [48] [102] 5 [] rfl rfl
    (by decide) (by decide) (by decide) (by decide)⟩

/-- C6: failing preconditions leave the store unwritten.  updateFile on an
id with no stored record throws NotFound and returns no new store;
createFile with an empty name, and updateFile with a present empty name
field, throw InvalidArgument before any write. -/
theorem c6_precondition_failures :
    (∀ ns fileId patch now s, fileId.isEmpty = false →
      getItem (ns ++ fileId) s = none →
      updateFileM ns fileId patch now s = .error .notFound) ∧
    (∀ ns name content version fileId now s, name.isEmpty = true →
      createFileM ns name content version fileId now s = .error .invalidArgument) ∧
    (∀ ns fileId patch now s stored fd n, fileId.isEmpty = false →
      getItem (ns ++ fileId) s = some stored → jsonParse stored = some fd →
      jsTruthy fd = true → patch.name = some n → n.isEmpty = true →
      updateFileM ns fileId patch now s = .error .invalidArgument) := by
  refine ⟨?_, ?_, ?_⟩
  · intro ns fileId patch now s hid hmiss
    simp only [updateFileM, hid, Bool.false_eq_true, if_false]
    rw [hmiss]
  · intro ns name content version fileId now s hname
    simp [createFileM, hname]
  · intro ns fileId patch now s stored fd n hid hstored hparse htruthy hn hempty
    simp only [updateFileM, hid, Bool.false_eq_true, if_false]
    rw [hstored]
    simp only []
    rw [hparse]
    simp only []
    rw [htruthy]
    simp only [Bool.true_eq_false, if_false, hn, hempty, if_true]

/-- Closed instance of the precondition failures. -/
theorem c6_precondition_failures_witness :
    updateFileM [69] [102] {} 0 [] = .error .notFound ∧
    createFileM [69] [] [] [] [102] 0 [] = .error .invalidArgument ∧
    updateFileM [69] [102] { name := some [] } 0
        [([69, 102], stringifyJson (Json.obj [(idKey, .str [102])]))] =
      .error .invalidArgument := by
  refine ⟨c6_precondition_failures.1 [69] [102] {} 0 [] rfl rfl,
    c6_precondition_failures.2.1 [69] [] [] [] [102] 0 [] rfl,
    c6_precondition_failures.2.2 [69] [102] { name := some [] } 0 _
      (stringifyJson (Json.obj [(idKey, .str [102])])) (Json.obj [(idKey, .str [102])]) []
      rfl rfl ?_ rfl rfl rfl⟩
  refine jsonParse_stringify _ ⟨swf_keys.1, ?_, trivial⟩
  show ∀ c ∈ ([102] : Str), c < 65536
  decide

/-- Lookup across an append. -/
theorem lookupF_append (l1 l2 : List (Str × Json)) (k : Str) :
    lookupF (l1 ++ l2) k = (lookupF l1 k <|> lookupF l2 k) := by
  induction l1 with
  | nil => simp [lookupF]
  | cons kv t ih =>
    by_cases h : kv.1 = k
    · simp [lookupF, h]
    · simp [lookupF, h, ih]

/-- Lookup in the overwrite map of a spread merge. -/
theorem lookupF_map_merge (a b : List (Str × Json)) (k : Str) :
    lookupF (a.map (fun kv => (kv.1, (lookupF b kv.1).getD kv.2))) k =
      (lookupF a k).map (fun v => (lookupF b k).getD v) := by
  induction a with
  | nil => simp [lookupF]
  | cons kv t ih =>
    by_cases h : kv.1 = k
    · simp [lookupF, h]
    · simp [lookupF, h, ih]

/-- A key is absent iff no binding matches it. -/
theorem lookupF_eq_none_iff_any (a : List (Str × Json)) (k : Str) :
    lookupF a k = none ↔ a.any (fun kv => kv.1 == k) = false := by
  induction a with
  | nil => simp [lookupF]
  | cons kv t ih =>
    by_cases h : kv.1 = k
    · simp [lookupF, h]
    · simp [lookupF, h, ih]

/-- Filtering with a predicate that keeps every binding of k preserves
the lookup of k. -/
theorem lookupF_filter_true (p : Str × Json → Bool) (b : List (Str × Json)) (k : Str)
    (h : ∀ kv, kv.1 = k → p kv = true) : lookupF (b.filter p) k = lookupF b k := by
  induction b with
  | nil => simp
  | cons kv t ih =>
    by_cases hp : p kv = true
    · by_cases hk : kv.1 = k <;> simp [List.filter_cons, hp, lookupF, hk, ih]
    · have hk : ¬ kv.1 = k := fun hh => hp (h kv hh)
      simp [List.filter_cons, hp, lookupF, hk, ih]

/-- The spread merge looks up the patch first and falls back to the
original fields. -/
theorem mergeFields_lookup (a b : List (Str × Json)) (k : Str) :
    lookupF (mergeFields a b) k = (lookupF b k <|> lookupF a k) := by
  unfold mergeFields
  rw [lookupF_append, lookupF_map_merge]
  cases ha : lookupF a k with
  | some v => cases hb : lookupF b k <;> simp [hb]
  | none =>
    have hany : a.any (fun kv => kv.1 == k) = false := (lookupF_eq_none_iff_any a k).1 ha
    rw [lookupF_filter_true]
    · simp
    · intro kv hk
      simp [hk, hany]

/-- Assignment then lookup of the same key. -/
theorem lookupF_setField_self (fs : List (Str × Json)) (k : Str) (v : Json) :
    lookupF (setField fs k v) k = some v := by
  induction fs with
  | nil => simp [setField, lookupF]
  | cons kv t ih =>
    by_cases h : kv.1 = k
    · simp [setField, h, lookupF]
    · simp [setField, h, lookupF, ih]

/-- Assignment then lookup of a different key. -/
theorem lookupF_setField_other (fs : List (Str × Json)) (k k' : Str) (v : Json)
    (h : k' ≠ k) : lookupF (setField fs k v) k' = lookupF fs k' := by
  have hne : ¬ (k = k') := fun hh => h hh.symm
  induction fs with
  | nil => simp [setField, lookupF, hne]
  | cons kv t ih =>
    obtain ⟨k1, v1⟩ := kv
    by_cases hk : k1 = k
    · subst hk
      simp [setField, lookupF, hne]
    · simp only [setField, hk, if_false, lookupF]
      by_cases hk' : k1 = k' <;> simp [hk', ih]

/-- C4: the update patch frame.  (1) A content-only patch rewrites the
record with only content and metadata.updatedAt changed — name,
boardVersion, createdAt and any extra metadata are untouched — and the
post-update updatedAt (now) is strictly greater than the pre-update
value; (2) a metadata-only patch shallow-merges the supplied object into
the existing metadata (patch keys win, other existing keys survive) and
forces updatedAt to now; (3) a patch with no recognized fields performs
no write: the store is returned unchanged. -/
theorem c4_update_frame :
    (∀ ns r c2 now s, RecordWf r → SWf c2 → r.id.isEmpty = false →
      getItem (ns ++ r.id) s = some (stringifyJson (recordJson r)) →
      r.updatedAt < now →
      updateFileM ns r.id ⟨some c2, none, none, none⟩ now s =
        .ok (setItem (ns ++ r.id)
          (stringifyJson (recordJson
            ⟨r.id, r.name, c2, r.boardVersion, r.createdAt, now, r.extraMeta⟩)) s) ∧
      loadFileM ns r.id (setItem (ns ++ r.id)
          (stringifyJson (recordJson
            ⟨r.id, r.name, c2, r.boardVersion, r.createdAt, now, r.extraMeta⟩)) s) =
        .ok (some (recordJson
          ⟨r.id, r.name, c2, r.boardVersion, r.createdAt, now, r.extraMeta⟩)) ∧
      r.updatedAt < now) ∧
    (∀ ns r pmf now s, RecordWf r → r.id.isEmpty = false →
      getItem (ns ++ r.id) s = some (stringifyJson (recordJson r)) →
      updateFileM ns r.id ⟨none, none, none, some pmf⟩ now s =
        .ok (setItem (ns ++ r.id)
          (stringifyJson (jsSetProp (recordJson r) metadataKey
            (.obj (setField (mergeFields (metaFields r) pmf) updatedAtKey
              (.num (natLex now)))))) s) ∧
      lookupF (setField (mergeFields (metaFields r) pmf) updatedAtKey (.num (natLex now)))
          updatedAtKey = some (.num (natLex now)) ∧
      (∀ k, k ≠ updatedAtKey →
        lookupF (setField (mergeFields (metaFields r) pmf) updatedAtKey (.num (natLex now))) k =
          (lookupF pmf k <|> lookupF (metaFields r) k))) ∧
    (∀ ns fileId now s stored fd, fileId.isEmpty = false →
      getItem (ns ++ fileId) s = some stored → jsonParse stored = some fd →
      jsTruthy fd = true →
      updateFileM ns fileId ⟨none, none, none, none⟩ now s = .ok s) := by
  refine ⟨?_, ?_, ?_⟩
  · intro ns r c2 now s hwf hc2 hid hstored hlt
    have hparse := jsonParse_stringify _ (recordJson_wf r hwf)
    refine ⟨?_, ?_, hlt⟩
    · simp only [updateFileM, hid, Bool.false_eq_true, if_false]
      rw [hstored]
      simp only []
      rw [hparse]
      rfl
    · have hwf' : RecordWf ⟨r.id, r.name, c2, r.boardVersion, r.createdAt, now, r.extraMeta⟩ :=
        ⟨hwf.1, hwf.2.1, hc2, hwf.2.2.2.1, hwf.2.2.2.2⟩
      simp only [loadFileM, hid, Bool.false_eq_true, if_false]
      rw [getItem_setItem_self]
      simp only []
      rw [jsonParse_stringify _ (recordJson_wf _ hwf')]
  · intro ns r pmf now s hwf hid hstored
    have hparse := jsonParse_stringify _ (recordJson_wf r hwf)
    refine ⟨?_, lookupF_setField_self _ _ _, fun k hk => ?_⟩
    · simp only [updateFileM, hid, Bool.false_eq_true, if_false]
      rw [hstored]
      simp only []
      rw [hparse]
      rfl
    · rw [lookupF_setField_other _ _ _ _ hk, mergeFields_lookup]
  · intro ns fileId now s stored fd hid hstored hparse htruthy
    simp only [updateFileM, hid, Bool.false_eq_true, if_false]
    rw [hstored]
    simp only []
    rw [hparse]
    simp only []
    rw [htruthy]
    rfl

/-- A one-unit string below the BMP bound is wellformed. -/
theorem swf_single (c : Nat) (h : c < 65536) : SWf [c] := by
  intro x hx
  simp only [List.mem_singleton] at hx
  omega

/-- Closed instance of the update patch frame. -/
theorem c4_update_frame_witness :
    (updateFileM [69] [102] ⟨some [120], none, none, none⟩ 9
        [([69] ++ [102], stringifyJson (recordJson ⟨[102], [97], [99], [48], 3, 4, []⟩))] =
      .ok (setItem ([69] ++ [102])
        (stringifyJson (recordJson ⟨[102], [97], [120], [48], 3, 9, []⟩))
        [([69] ++ [102], stringifyJson (recordJson ⟨[102], [97], [99], [48], 3, 4, []⟩))])) ∧
    (lookupF (setField (mergeFields (metaFields ⟨[102], [97], [99], [48], 3, 4, []⟩)
        [(createdAtKey, Json.num (natLex 7))]) updatedAtKey (Json.num (natLex 9)))
        createdAtKey = some (Json.num (natLex 7))) ∧
    (updateFileM [69] [102] ⟨none, none, none, none⟩ 9
        [([69] ++ [102], stringifyJson (recordJson ⟨[102], [97], [99], [48], 3, 4, []⟩))] =
      .ok [([69] ++ [102], stringifyJson (recordJson ⟨[102], [97], [99], [48], 3, 4, []⟩))]) := by
  have hwf : RecordWf ⟨[102], [97], [99], [48], 3, 4, []⟩ :=
    ⟨swf_single 102 (by omega), swf_single 97 (by omega), swf_single 99 (by omega),
     swf_single 48 (by omega), trivial⟩
  have hc2 : SWf [120] := swf_single 120 (by omega)
  refine ⟨(c4_update_frame.1 [69] ⟨[102], [97], [99], [48], 3, 4, []⟩ [120] 9
      [([69] ++ [102], stringifyJson (recordJson ⟨[102], [97], [99], [48], 3, 4, []⟩))]
      hwf hc2 rfl (by simp [getItem]) (by decide)).1, ?_, ?_⟩
  · rw [(c4_update_frame.2.1 [69] ⟨[102], [97], [99], [48], 3, 4, []⟩
      [(createdAtKey, Json.num (natLex 7))] 9
      [([69] ++ [102], stringifyJson (recordJson ⟨[102], [97], [99], [48], 3, 4, []⟩))]
      hwf rfl (by simp [getItem])).2.2 createdAtKey (by decide)]
    rfl
  · exact c4_update_frame.2.2 [69] [102] 9
      [([69] ++ [102], stringifyJson (recordJson ⟨[102], [97], [99], [48], 3, 4, []⟩))]
      (stringifyJson (recordJson ⟨[102], [97], [99], [48], 3, 4, []⟩))
      (recordJson ⟨[102], [97], [99], [48], 3, 4, []⟩)
      rfl (by simp [getItem]) (jsonParse_stringify _ (recordJson_wf _ hwf)) rfl

/-! ## listFiles sorting lemmas -/

/-- Insertion permutes. -/
theorem insertDesc_perm (x : Summary) (l : List Summary) :
    List.Perm (insertDesc x l) (x :: l) := by
  induction l with
  | nil => simp [insertDesc]
  | cons y ys ih =>
    by_cases h : cmpBefore y x = true
    · simp only [insertDesc, h, if_true]
      exact (ih.cons y).trans (List.Perm.swap x y ys)
    · simp [insertDesc, h]

/-- The sort permutes. -/
theorem sortDesc_perm (l : List Summary) : List.Perm (sortDesc l) l := by
  induction l with
  | nil => simp [sortDesc]
  | cons x xs ih => exact (insertDesc_perm x (sortDesc xs)).trans (ih.cons x)

/-- A strict precedence one way forbids it the other way. -/
theorem cmpBefore_asymm (a b : Summary) (h : cmpBefore a b = true) : cmpBefore b a = false := by
  cases ha : createdAtVal a <;> cases hb : createdAtVal b <;>
    simp [cmpBefore, ha, hb] at * <;> omega

/-- Non-precedence is transitive when all three sort keys exist. -/
theorem cmpBefore_trans_false (a b c : Summary) (hab : cmpBefore b a = false)
    (hbc : cmpBefore c b = false) (ha : (createdAtVal a).isSome)
    (hb : (createdAtVal b).isSome) (hc : (createdAtVal c).isSome) :
    cmpBefore c a = false := by
  obtain ⟨x, hx⟩ := Option.isSome_iff_exists.1 ha
  obtain ⟨y, hy⟩ := Option.isSome_iff_exists.1 hb
  obtain ⟨z, hz⟩ := Option.isSome_iff_exists.1 hc
  simp [cmpBefore, hx, hy, hz] at *
  omega

/-- Inserting into a descending list keeps it descending, when every sort
key exists. -/
theorem insertDesc_sorted (x : Summary) (l : List Summary)
    (hl : List.Pairwise (fun a b => cmpBefore b a = false) l)
    (hx : (createdAtVal x).isSome) (hsome : ∀ a ∈ l, (createdAtVal a).isSome) :
    List.Pairwise (fun a b => cmpBefore b a = false) (insertDesc x l) := by
  induction l with
  | nil => simp [insertDesc]
  | cons y ys ih =>
    obtain ⟨hy, hys⟩ := List.pairwise_cons.1 hl
    by_cases h : cmpBefore y x = true
    · simp only [insertDesc, h, if_true]
      refine List.pairwise_cons.2 ⟨?_, ih hys (fun a haa => hsome a (List.mem_cons_of_mem y haa))⟩
      intro z hz
      rcases List.mem_cons.1 ((insertDesc_perm x ys).mem_iff.1 hz) with hzx | hzys
      · rw [hzx]
        exact cmpBefore_asymm y x h
      · exact hy z hzys
    · simp only [insertDesc, h, if_false]
      have hxy : cmpBefore y x = false := by
        cases hcy : cmpBefore y x
        · rfl
        · exact absurd hcy h
      refine List.pairwise_cons.2 ⟨?_, hl⟩
      intro z hz
      rcases List.mem_cons.1 hz with hzy | hzys
      · subst hzy
        exact hxy
      · exact cmpBefore_trans_false x y z hxy (hy z hzys) hx
          (hsome y (List.mem_cons_self y ys)) (hsome z (List.mem_cons_of_mem y hzys))

/-- The sort output is descending when every sort key exists. -/
theorem sortDesc_sorted (l : List Summary) (hsome : ∀ a ∈ l, (createdAtVal a).isSome) :
    List.Pairwise (fun a b => cmpBefore b a = false) (sortDesc l) := by
  induction l with
  | nil => simp [sortDesc]
  | cons x xs ih =>
    refine insertDesc_sorted x (sortDesc xs)
      (ih (fun a haa => hsome a (List.mem_cons_of_mem x haa)))
      (hsome x (List.mem_cons_self x xs)) ?_
    intro a haa
    exact hsome a (List.mem_cons_of_mem x ((sortDesc_perm xs).mem_iff.1 haa))

/-- C5: listFiles contents, ordering and robustness.  (1) The output is a
permutation of one summary per acceptable stored entry: exactly the slots
whose key starts with the namespace and whose value decodes to a record
with truthy id, name and metadata contribute, each exactly once, and the
scan is a total function — an undecodable or partial entry yields no
summary instead of a failure; (2) when every collected summary carries an
integer metadata.createdAt the output is sorted by it, descending;
(3) dropping any entry that contributes no summary leaves the output
unchanged — a corrupted slot does not abort the scan; (4) a record as
written by createFile with non-empty id and name contributes exactly the
summary {id, name, boardVersion, metadata}, with no content field. -/
theorem c5_list_files :
    (∀ ns s, List.Perm (listFilesM ns s) (s.filterMap (entrySummary ns))) ∧
    (∀ ns s, (∀ sm ∈ s.filterMap (entrySummary ns), (createdAtVal sm).isSome) →
      List.Pairwise (fun a b => cmpBefore b a = false) (listFilesM ns s)) ∧
    (∀ ns pre kv post, entrySummary ns kv = none →
      listFilesM ns (pre ++ kv :: post) = listFilesM ns (pre ++ post)) ∧
    (∀ ns r, RecordWf r → r.id ≠ [] → r.name ≠ [] →
      entrySummary ns (ns ++ r.id, stringifyJson (recordJson r)) =
        some ⟨.str r.id, .str r.name, some (.str r.boardVersion), .obj (metaFields r)⟩) := by
  refine ⟨fun ns s => sortDesc_perm _, fun ns s h => sortDesc_sorted _ h, ?_, ?_⟩
  · intro ns pre kv post h
    simp [listFilesM, List.filterMap_append, List.filterMap_cons, h]
  · intro ns r hwf hid hname
    have hpre : ns.isPrefixOf (ns ++ r.id) = true := by
      rw [List.isPrefixOf_iff_prefix]
      exact List.prefix_append ns r.id
    have hog1 : objGet (recordJson r) idKey = some (Json.str r.id) := rfl
    have hog2 : objGet (recordJson r) nameKey = some (Json.str r.name) := rfl
    have hog3 : objGet (recordJson r) metadataKey = some (Json.obj (metaFields r)) := rfl
    have hog4 : objGet (recordJson r) boardVersionKey = some (Json.str r.boardVersion) := rfl
    have hidt : jsTruthy (Json.str r.id) = true := by
      simp [jsTruthy, List.isEmpty_iff, hid]
    have hnamet : jsTruthy (Json.str r.name) = true := by
      simp [jsTruthy, List.isEmpty_iff, hname]
    simp only [entrySummary, hpre, if_true]
    rw [jsonParse_stringify _ (recordJson_wf r hwf)]
    simp only []
    rw [if_pos ⟨rfl, by rw [hog1]; simpa [truthyOpt] using hidt,
      by rw [hog2]; simpa [truthyOpt] using hnamet, by rw [hog3]; rfl⟩]
    simp [hog1, hog2, hog3, hog4]

/-- A small wellformed stored entry used to exercise listFiles. -/
def listEntry (key : Str) (ca : Nat) : Str × Str :=
  (key, stringifyJson (Json.obj [(idKey, .str [97]), (nameKey, .str [98]),
    (metadataKey, .obj [(createdAtKey, .num (natLex ca))])]))

/-- Closed instance of the listFiles properties. -/
theorem c5_list_files_witness :
    List.Perm (listFilesM [69] [listEntry [69, 49] 3, listEntry [69, 50] 7])
      (([listEntry [69, 49] 3, listEntry [69, 50] 7]).filterMap (entrySummary [69])) ∧
    List.Pairwise (fun a b => cmpBefore b a = false)
      (listFilesM [69] [listEntry [69, 49] 3, listEntry [69, 50] 7]) ∧
    listFilesM [69] ([listEntry [69, 49] 3] ++ ([69, 51], [123]) :: [listEntry [69, 50] 7]) =
      listFilesM [69] ([listEntry [69, 49] 3] ++ [listEntry [69, 50] 7]) ∧
    entrySummary [69] ([69] ++ [102], stringifyJson (recordJson ⟨[102], [97], [99], [48], 3, 4, []⟩)) =
      some ⟨.str [102], .str [97], some (.str [48]),
        .obj (metaFields ⟨[102], [97], [99], [48], 3, 4, []⟩)⟩ := by
  refine ⟨c5_list_files.1 [69] _, c5_list_files.2.1 [69] _ (by decide),
    c5_list_files.2.2.1 [69] [listEntry [69, 49] 3] ([69, 51], [123]) [listEntry [69, 50] 7]
      rfl,
    c5_list_files.2.2.2 [69] ⟨[102], [97], [99], [48], 3, 4, []⟩
      ⟨swf_single 102 (by omega), swf_single 97 (by omega), swf_single 99 (by omega),
       swf_single 48 (by omega), trivial⟩ (by simp) (by simp)⟩

/-! ## clearAll lemmas -/
/-- With unique keys, removing the key of slot i removes exactly slot i. -/
theorem removeKey_nodup (s : Store) (i : Nat) (hi : i < s.length)
    (hnd : (s.map Prod.fst).Nodup) :
    removeKey (s[i].1) s = s.take i ++ s.drop (i + 1) := by
  induction s generalizing i with
  | nil => simp at hi
  | cons kv t ih =>
    cases i with
    | zero => simp [removeKey]
    | succ j =>
      have hj : j < t.length := by simpa using hi
      have hmem : (t[j].1) ∈ t.map Prod.fst :=
        List.mem_map_of_mem Prod.fst (List.getElem_mem hj)
      have hne : ¬ kv.1 = (t[j].1) := by
        intro hh
        exact (List.nodup_cons.1 hnd).1 (hh ▸ hmem)
      simp only [List.getElem_cons_succ, removeKey, hne, if_false, List.take_succ_cons,
        List.drop_succ_cons, List.cons_append]
      rw [ih j hj (List.nodup_cons.1 hnd).2]

/-- The backward removal loop computed on the region below i, provided
slots from i on hold no namespaced key. -/
theorem clearFrom_spec (ns : Str) : ∀ (i : Nat) (s : Store), (s.map Prod.fst).Nodup →
    i ≤ s.length → (∀ kv ∈ s.drop i, ns.isPrefixOf kv.1 = false) →
    clearFrom ns i s = ((s.take i).filter (fun kv => ! ns.isPrefixOf kv.1) ++ s.drop i,
      ((s.take i).filter (fun kv => ns.isPrefixOf kv.1)).length) := by
  intro i
  induction i with
  | zero => intro s hnd hle hdrop; simp [clearFrom]
  | succ j ih =>
    intro s hnd hle hdrop
    have hj : j < s.length := by omega
    have hget : s[j]? = some (s[j]) := List.getElem?_eq_getElem hj
    have hlen : (s.take j).length = j := by
      simp [List.length_take]
      omega
    have hts : s.take (j + 1) = s.take j ++ [s[j]] := by
      rw [List.take_succ, hget]
      rfl
    have hds : s.drop j = s[j] :: s.drop (j + 1) := List.drop_eq_getElem_cons hj
    simp only [clearFrom, hget]
    by_cases hp : ns.isPrefixOf (s[j].1) = true
    · simp only [hp, if_true]
      have herase : removeKey (s[j].1) s = s.take j ++ s.drop (j + 1) :=
        removeKey_nodup s j hj hnd
      have hsub : (s.take j ++ s.drop (j + 1)).Sublist s := by
        rw [← List.eraseIdx_eq_take_drop_succ]
        exact List.eraseIdx_sublist s j
      have hnd' : ((s.take j ++ s.drop (j + 1)).map Prod.fst).Nodup :=
        List.Nodup.sublist (hsub.map Prod.fst) hnd
      have hdrop' : (s.take j ++ s.drop (j + 1)).drop j = s.drop (j + 1) := by
        have hh := List.drop_left (s.take j) (s.drop (j + 1))
        rw [hlen] at hh
        exact hh
      have htake' : (s.take j ++ s.drop (j + 1)).take j = s.take j := by
        have hh := List.take_left (s.take j) (s.drop (j + 1))
        rw [hlen] at hh
        exact hh
      rw [herase, ih (s.take j ++ s.drop (j + 1)) hnd'
        (by simp [List.length_take, List.length_drop]; omega)
        (by rw [hdrop']; exact hdrop)]
      rw [htake', hdrop']
      simp only [Prod.mk.injEq]
      have hfa : List.filter (fun kv => ! ns.isPrefixOf kv.1) [s[j]] = [] := by
        simp [List.filter_cons, hp]
      have hfb : List.filter (fun kv => ns.isPrefixOf kv.1) [s[j]] = [s[j]] := by
        simp [List.filter_cons, hp]
      constructor
      · rw [hts, List.filter_append, hfa, List.append_nil]
      · rw [hts, List.filter_append, hfb]
        simp [List.length_append]
    · have hpf : ns.isPrefixOf (s[j].1) = false := by
        cases hc : ns.isPrefixOf (s[j].1)
        · rfl
        · exact absurd hc hp
      simp only [hpf, Bool.false_eq_true, if_false]
      rw [ih s hnd (by omega)
        (by intro kv hkv
            rw [hds] at hkv
            rcases List.mem_cons.1 hkv with hkv1 | hkv2
            · rw [hkv1]; exact hpf
            · exact hdrop kv hkv2)]
      simp only [Prod.mk.injEq]
      have hfa : List.filter (fun kv => ! ns.isPrefixOf kv.1) [s[j]] = [s[j]] := by
        simp [List.filter_cons, hpf]
      have hfb : List.filter (fun kv => ns.isPrefixOf kv.1) [s[j]] = [] := by
        simp [List.filter_cons, hpf]
      constructor
      · rw [hts, hds, List.filter_append, hfa, List.append_assoc, List.singleton_append]
      · rw [hts, List.filter_append, hfb, List.append_nil]

/-- C8: clearAll exactness and namespace isolation.  With unique storage
keys, clearAll removes exactly the slots whose key starts with the
namespace prefix — the surviving store is the original filtered to
non-prefix keys, all untouched and in order — and returns the number of
removed keys; and listFiles is likewise isolated: a slot outside the
namespace contributes nothing to its output. -/
theorem c8_clear_all :
    (∀ ns s, (s.map Prod.fst).Nodup →
      clearAllM ns s = (s.filter (fun kv => ! ns.isPrefixOf kv.1),
        (s.filter (fun kv => ns.isPrefixOf kv.1)).length)) ∧
    (∀ ns pre kv post, ns.isPrefixOf kv.1 = false →
      listFilesM ns (pre ++ kv :: post) = listFilesM ns (pre ++ post)) := by
  constructor
  · intro ns s hnd
    have h := clearFrom_spec ns s.length s hnd (le_refl _) (by simp)
    rw [clearAllM, h]
    simp
  · intro ns pre kv post h
    have he : entrySummary ns kv = none := by
      simp [entrySummary, h]
    simp [listFilesM, List.filterMap_append, List.filterMap_cons, he]

/-- Closed instance of clearAll exactness. -/
theorem c8_clear_all_witness :
    clearAllM [69] [([69, 49], [97]), ([70, 50], [98]), ([69, 51], [99])] =
      ([([70, 50], [98])], 2) ∧
    listFilesM [69] ([listEntry [69, 49] 3] ++ ([70, 50], [98]) :: [listEntry [69, 50] 7]) =
      listFilesM [69] ([listEntry [69, 49] 3] ++ [listEntry [69, 50] 7]) := by
  constructor
  · rw [c8_clear_all.1 [69] [([69, 49], [97]), ([70, 50], [98]), ([69, 51], [99])] (by decide)]
    rfl
  · exact c8_clear_all.2 [69] [listEntry [69, 49] 3] ([70, 50], [98]) [listEntry [69, 50] 7] rfl

/-! ## The session controller (editor page, src/unnamed/part_011)

The mutable session state (currentFileId, isDirty, isBoardLoading,
currentBoardVersion, the version selector, the editor buffer, the autosave
timer and localStorage) is a record; DOM/timer effects are explicit: live
timer handles are listed, setTimeout draws a fresh handle, clearTimeout
drops one; the script-load outcome of a version change arrives with the
event.  fs.updateFile calls are both applied to the store and logged. -/

/-- The SUPPORTED_TRIDECCO_VERSIONS list, newest first. -/
def supportedVersions : List Str :=
  [[48, 46, 51, 46, 49], [48, 46, 51, 46, 48], [48, 46, 50, 46, 51], [48, 46, 50, 46, 50],
   [48, 46, 50, 46, 49], [48, 46, 50, 46, 48], [48, 46, 49, 46, 49]]

/-- LATEST_TRIDECCO_VERSION, the head of the supported list. -/
def latestVersion : Str := [48, 46, 51, 46, 49]

/-- Truthiness of a nullable string (null and the empty string are
falsy). -/
def optTruthy : Option Str → Bool
  | none => false
  | some s => !s.isEmpty

/-- JavaScript s1 || s2 on a nullable string. -/
def orElseStr (a : Option Str) (b : Str) : Str :=
  match a with
  | some s => if s.isEmpty then b else s
  | none => b

/-- clearTimeout: a live handle is cancelled, anything else ignored. -/
def clearTimeoutL (t : Option Nat) (live : List Nat) : List Nat :=
  match t with
  | none => live
  | some h => live.filter (fun x => x != h)

/-- The session state. -/
structure World where
  currentFileId : Option Str
  isDirty : Bool
  isBoardLoading : Bool
  currentBoardVersion : Option Str
  selectorValue : Option Str
  editorContent : Str
  timeoutId : Option Nat
  live : List Nat
  nextTimer : Nat
  store : Store
  saves : List (Str × Str)
  now : Nat

/-- updateSaveStatus: always clears the pending autosave timer and nulls
the handle (the status text itself is not modelled). -/
def updateSaveStatus (w : World) : World :=
  { w with live := clearTimeoutL w.timeoutId w.live, timeoutId := none }

/-- triggerAutosave: no-op unless a stored file is bound, dirty, and no
board load is in progress; otherwise cancel any pending timer (directly
and again via updateSaveStatus) and schedule a fresh one. -/
def triggerAutosave (w : World) : World :=
  if !optTruthy w.currentFileId || !w.isDirty || w.isBoardLoading then w
  else
    let w1 := { w with live := clearTimeoutL w.timeoutId w.live }
    let w2 := updateSaveStatus w1
    { w2 with timeoutId := some w2.nextTimer,
              live := w2.live ++ [w2.nextTimer],
              nextTimer := w2.nextTimer + 1 }

/-- The boardVersion argument of an autosave: selector value, else the
current board version, else the latest supported version. -/
def versionToSave (w : World) : Str :=
  orElseStr w.selectorValue (orElseStr w.currentBoardVersion latestVersion)

/-- performAutosave: re-check the guard (status update only on early
return), then call fs.updateFile with the current editor content and the
selector-derived version; on success clear the dirty flag and adopt the
saved version; either way null the timer handle. -/
def performAutosave (ns : Str) (w : World) : World :=
  if !optTruthy w.currentFileId || !w.isDirty || w.isBoardLoading then
    updateSaveStatus w
  else
    let content := w.editorContent
    let v := versionToSave w
    let fid := match w.currentFileId with
      | some s => s
      | none => []
    match updateFileM ns fid ⟨some content, some v, none, none⟩ w.now w.store with
    | .ok st =>
      let w1 := updateSaveStatus { w with store := st,
                                          saves := w.saves ++ [(content, v)],
                                          isDirty := false,
                                          currentBoardVersion := some v }
      { w1 with timeoutId := none }
    | .error _ =>
      let w1 := updateSaveStatus { w with saves := w.saves ++ [(content, v)] }
      { w1 with timeoutId := none }

/-- Session events: an editor content change, an autosave timer firing,
and a version-selector change whose script load succeeds or fails. -/
inductive Ev where
  | change (c : Str)
  | fire (t : Nat)
  | select (v : Str) (ok : Bool)

/-- One step of the session controller: the editor onContentChange
handler, a setTimeout callback, or handleVersionChange together with the
loadTrideccoVersion outcome. -/
def step (ns : Str) (w : World) (e : Ev) : World :=
  match e with
  | .change c =>
    let w0 := { w with editorContent := c }
    let w1 := if !w0.isDirty then updateSaveStatus { w0 with isDirty := true } else w0
    if optTruthy w1.currentFileId && !w1.isBoardLoading then triggerAutosave w1 else w1
  | .fire t =>
    if w.live.contains t then performAutosave ns { w with live := w.live.filter (fun x => x != t) }
    else w
  | .select v ok =>
    if w.isBoardLoading then w
    else
      let w0 := { w with selectorValue := some v }
      if some v == w0.currentBoardVersion then w0
      else if !(supportedVersions.contains v) then w0
      else if ok then
        let w1 := { w0 with isBoardLoading := false,
                            currentBoardVersion := some v,
                            selectorValue := some v }
        if optTruthy w1.currentFileId then
          triggerAutosave (updateSaveStatus { w1 with isDirty := true })
        else updateSaveStatus w1
      else
        { w0 with isBoardLoading := false,
                  selectorValue := if optTruthy w0.currentBoardVersion then
                    w0.currentBoardVersion else w0.selectorValue }

/-- C9: version-load failure atomicity.  A version change request that
cannot load — an unsupported version (rejected before any state change)
or a supported one whose script load fails — leaves currentBoardVersion,
isDirty and the store (hence the bound record's persisted boardVersion)
unchanged and ends with the loading flag clear; on a script-load failure
with a truthy current version the displayed selection is reverted to it. -/
theorem c9_version_load_failure :
    (∀ ns w v ok, w.isBoardLoading = false → (some v == w.currentBoardVersion) = false →
      supportedVersions.contains v = false →
      step ns w (.select v ok) = { w with selectorValue := some v }) ∧
    (∀ ns w v, w.isBoardLoading = false → (some v == w.currentBoardVersion) = false →
      supportedVersions.contains v = true → optTruthy w.currentBoardVersion = true →
      step ns w (.select v false) = { w with selectorValue := w.currentBoardVersion,
                                             isBoardLoading := false }) := by
  constructor
  · intro ns w v ok hload hne hsup
    have hnm : v ∉ supportedVersions := by simpa using hsup
    simp [step, hload, hne, hnm]
  · intro ns w v hload hne hsup htr
    have hm : v ∈ supportedVersions := by simpa using hsup
    simp [step, hload, hne, hm, htr]

/-- Closed instance of version-load failure atomicity. -/
theorem c9_version_load_failure_witness :
    step [69] ⟨some [102], false, false, some [48, 46, 51, 46, 49], some [48, 46, 51, 46, 49],
        [], none, [], 0, [], [], 0⟩ (.select [57, 46, 57, 46, 57] true) =
      { (⟨some [102], false, false, some [48, 46, 51, 46, 49], some [48, 46, 51, 46, 49],
          [], none, [], 0, [], [], 0⟩ : World) with selectorValue := some [57, 46, 57, 46, 57] } ∧
    step [69] ⟨some [102], false, false, some [48, 46, 51, 46, 49], some [48, 46, 51, 46, 49],
        [], none, [], 0, [], [], 0⟩ (.select [48, 46, 51, 46, 48] false) =
      { (⟨some [102], false, false, some [48, 46, 51, 46, 49], some [48, 46, 51, 46, 49],
          [], none, [], 0, [], [], 0⟩ : World) with
          selectorValue := some [48, 46, 51, 46, 49], isBoardLoading := false } :=
  ⟨c9_version_load_failure.1 [69] _ [57, 46, 57, 46, 57] true rfl rfl rfl,
   c9_version_load_failure.2 [69] _ [48, 46, 51, 46, 48] rfl rfl rfl rfl⟩

/-- C2: autosave debounce.  For a session bound to a stored file, dirty,
not version-loading and with no pending timer, two content-change events
inside one debounce window (the first timer never fires: it is cancelled
by the second trigger, and firing it is a no-op) followed by the firing
of the second timer produce exactly one fs.updateFile call, whose content
argument is the content after the second event, and which persists that
content; after every step at most one autosave timer is outstanding. -/
theorem c2_autosave_debounce (ns : Str) (w : World) (r : FileRecord) (c1 c2 : Str)
    (hid : w.currentFileId = some r.id) (hidne : r.id.isEmpty = false)
    (hdirty : w.isDirty = true) (hload : w.isBoardLoading = false)
    (hlive : w.live = []) (htid : w.timeoutId = none) (hsaves : w.saves = [])
    (hwf : RecordWf r)
    (hstored : getItem (ns ++ r.id) w.store = some (stringifyJson (recordJson r))) :
    ∀ w1 w2 w3, w1 = step ns w (.change c1) → w2 = step ns w1 (.change c2) →
      w3 = step ns w2 (.fire (w.nextTimer + 1)) →
      w1.live = [w.nextTimer] ∧ w1.timeoutId = some w.nextTimer ∧ w1.saves = [] ∧
      w2.live = [w.nextTimer + 1] ∧ w2.timeoutId = some (w.nextTimer + 1) ∧ w2.saves = [] ∧
      step ns w2 (.fire w.nextTimer) = w2 ∧
      w3.saves = [(c2, versionToSave w)] ∧
      w3.store = setItem (ns ++ r.id)
        (stringifyJson (recordJson ⟨r.id, r.name, c2, versionToSave w, r.createdAt, w.now,
          r.extraMeta⟩)) w.store ∧
      w3.live = [] ∧ w3.timeoutId = none ∧ w3.isDirty = false := by
  intro w1 w2 w3 hw1 hw2 hw3
  have hparse := jsonParse_stringify _ (recordJson_wf r hwf)
  have h1 : step ns w (.change c1) =
      { w with
        editorContent := c1,
        timeoutId := some w.nextTimer,
        live := [w.nextTimer],
        nextTimer := w.nextTimer + 1 } := by
    simp [step, triggerAutosave, updateSaveStatus, clearTimeoutL, optTruthy,
      hid, hidne, hdirty, hload, htid, hlive]
  have h2 : step ns ({ w with
        editorContent := c1,
        timeoutId := some w.nextTimer,
        live := [w.nextTimer],
        nextTimer := w.nextTimer + 1 } : World) (.change c2) =
      { w with
        editorContent := c2,
        timeoutId := some (w.nextTimer + 1),
        live := [w.nextTimer + 1],
        nextTimer := w.nextTimer + 2 } := by
    simp [step, triggerAutosave, updateSaveStatus, clearTimeoutL, optTruthy,
      hid, hidne, hdirty, hload]
  have hupd : updateFileM ns r.id
      ⟨some c2, some (orElseStr w.selectorValue (orElseStr w.currentBoardVersion latestVersion)),
        none, none⟩ w.now w.store =
      .ok (setItem (ns ++ r.id)
        (stringifyJson (recordJson ⟨r.id, r.name, c2,
          orElseStr w.selectorValue (orElseStr w.currentBoardVersion latestVersion),
          r.createdAt, w.now, r.extraMeta⟩)) w.store) := by
    simp only [updateFileM, hidne, Bool.false_eq_true, if_false]
    rw [hstored]
    simp only []
    rw [hparse]
    rfl
  have h3 : step ns ({ w with
        editorContent := c2,
        timeoutId := some (w.nextTimer + 1),
        live := [w.nextTimer + 1],
        nextTimer := w.nextTimer + 2 } : World) (.fire (w.nextTimer + 1)) =
      { w with
        editorContent := c2,
        timeoutId := none,
        live := [],
        nextTimer := w.nextTimer + 2,
        store := setItem (ns ++ r.id)
          (stringifyJson (recordJson ⟨r.id, r.name, c2, versionToSave w, r.createdAt,
            w.now, r.extraMeta⟩)) w.store,
        saves := [(c2, versionToSave w)],
        isDirty := false,
        currentBoardVersion := some (versionToSave w) } := by
    simp [step, performAutosave, updateSaveStatus, clearTimeoutL, optTruthy, versionToSave,
      hid, hidne, hdirty, hload, hsaves, hupd]
  have hstale : step ns ({ w with
        editorContent := c2,
        timeoutId := some (w.nextTimer + 1),
        live := [w.nextTimer + 1],
        nextTimer := w.nextTimer + 2 } : World) (.fire w.nextTimer) =
      { w with
        editorContent := c2,
        timeoutId := some (w.nextTimer + 1),
        live := [w.nextTimer + 1],
        nextTimer := w.nextTimer + 2 } := by
    simp [step]
  subst hw1
  subst hw2
  subst hw3
  rw [h1, h2, h3, hstale]
  exact ⟨rfl, rfl, hsaves, rfl, rfl, hsaves, rfl, rfl, rfl, rfl, rfl, rfl⟩

/-- A concrete session bound to a stored record, used below. -/
def w0c2 : World :=
  ⟨some [102], true, false, some [48, 46, 51, 46, 49], some [48, 46, 51, 46, 49], [], none,
   [], 0, [([69] ++ [102], stringifyJson (recordJson ⟨[102], [97], [99], [48], 3, 4, []⟩))],
   [], 5⟩

/-- The session after the first content change. -/
def w1c2 : World := step [69] w0c2 (Ev.change [120])

/-- The session after the second content change. -/
def w2c2 : World := step [69] w1c2 (Ev.change [121])

/-- The session after the second timer fires. -/
def w3c2 : World := step [69] w2c2 (Ev.fire (w0c2.nextTimer + 1))

/-- Closed instance of the autosave debounce trace. -/
theorem c2_autosave_debounce_witness :
    w1c2.live = [w0c2.nextTimer] ∧ w1c2.timeoutId = some w0c2.nextTimer ∧ w1c2.saves = [] ∧
    w2c2.live = [w0c2.nextTimer + 1] ∧ w2c2.timeoutId = some (w0c2.nextTimer + 1) ∧
    w2c2.saves = [] ∧
    step [69] w2c2 (.fire w0c2.nextTimer) = w2c2 ∧
    w3c2.saves = [([121], versionToSave w0c2)] ∧
    w3c2.store = setItem ([69] ++ [102])
      (stringifyJson (recordJson ⟨[102], [97], [121], versionToSave w0c2, 3, 5, []⟩))
      w0c2.store ∧
    w3c2.live = [] ∧ w3c2.timeoutId = none ∧ w3c2.isDirty = false :=
  c2_autosave_debounce [69] w0c2 ⟨[102], [97], [99], [48], 3, 4, []⟩ [120] [121]
    rfl rfl rfl rfl rfl rfl rfl
    ⟨swf_single 102 (by omega), swf_single 97 (by omega), swf_single 99 (by omega),
     swf_single 48 (by omega), trivial⟩
    (by simp [w0c2, getItem])
    w1c2 w2c2 w3c2 rfl rfl rfl
